import Mathlib

/-!
# The style build of `static/webapp/assets/gulpfile.js`

The gulpfile registers three tasks (`scss`, `minify:css`, `default`).  Each of the first
two is a `gulp.src(...)` followed by a chain of `.pipe(...)` calls; `default` is
`gulp.series('scss', 'minify:css')`.

The file is embedded in two layers.

* What the gulpfile itself says: the `paths` record, the pattern lists, the stage chains
  built with `pipe`, the rename callback and the task registry.
* What the calls mean: paths and glob patterns (Node `path`, the glob matcher behind
  `gulp.src`), and the effect of each stage on the stream of files and on the file
  system.  The libraries are not part of the repository; they are modelled as they are
  documented (gulp 4, which `gulp.series` requires).  Contents are transformed by the
  external tools (the style compiler, the prefixer, the minifier, the source-map
  writer); those are parameters of the model, collected in `Transformers`, and each may
  read the file system besides the file it is given.  A stream is run stage by stage on
  the whole list of its files, a tool sees the file system as it is when its stage runs,
  and the files of a directory are listed in a fixed order.
-/

namespace Gulpfile

/-! ## Paths (Node `path`) -/

/-- A path relative to the working directory, as its list of segments. -/
abbrev Path := List String

/-- Cut a character list at every `/`. -/
def splitSlash : List Char → List (List Char)
  | [] => [[]]
  | c :: cs =>
    match splitSlash cs with
    | [] => if c = '/' then [[], []] else [[c]]
    | seg :: segs => if c = '/' then [] :: seg :: segs else (c :: seg) :: segs

/-- Segments of a path string, before normalisation. -/
def segments (s : String) : List String :=
  (splitSlash s.data).map String.mk

/-- One step of normalisation, on the reversed list of segments kept so far. -/
def pushSegment (acc : List String) (seg : String) : List String :=
  if seg = "" ∨ seg = "." then acc
  else if seg = ".." then
    match acc with
    | [] => [".."]
    | top :: below => if top = ".." then seg :: acc else below
  else seg :: acc

/-- The normal form of a relative path (`path.normalize`): empty and `.` segments are
dropped and `..` removes the segment before it. -/
def normalize (segs : List String) : Path :=
  (segs.foldl pushSegment []).reverse

/-- The path a string denotes, relative to the working directory (`path.resolve`). -/
def resolve (s : String) : Path :=
  normalize (segments s)

/-- The extension of a file name (`path.extname`): from its last dot, empty when there is
no dot or when the only dot is the first character. -/
def extnameChars (name : List Char) : List Char :=
  if name = ['.', '.'] then []
  else
    match name.reverse.span (fun c => c != '.') with
    | (_, []) => []
    | (suffix, _ :: before) => if before = [] then [] else '.' :: suffix.reverse

/-- The extension of a file name, as a string. -/
def extname (name : String) : String :=
  String.mk (extnameChars name.data)

/-- The file name without its extension (`path.basename(name, path.extname(name))`). -/
def stem (name : String) : String :=
  String.mk (name.data.take (name.data.length - (extnameChars name.data).length))

/-- The name with its extension replaced (`replace-ext`, on the last segment). -/
def replaceExtName (name ext : String) : String :=
  stem name ++ ext

/-- The path with the extension of its last segment replaced. -/
def replaceExt : Path → String → Path
  | [], _ => []
  | [name], ext => [replaceExtName name ext]
  | seg :: rest, ext => seg :: replaceExt rest ext

/-- The text of a path, segments joined by `/`. -/
def joinSegments : List String → String
  | [] => "."
  | [seg] => seg
  | seg :: rest => seg ++ "/" ++ joinSegments rest

/-! ## Glob patterns (`gulp.src`) -/

/-- A segment of a glob pattern.  The gulpfile uses literal segments, `*` inside a
segment and the segment `**`. -/
inductive SegPat where
  | lit (s : String)
  | wild (chars : List Char)
  | globstar
  deriving DecidableEq, Repr

/-- A glob as `gulp.src` receives it: negated when written with a leading `!`. -/
structure Glob where
  negated : Bool
  segs : List SegPat
  deriving DecidableEq, Repr

/-- Read one segment of a pattern. -/
def parseSegPat (seg : String) : SegPat :=
  if seg = "**" then .globstar
  else if '*' ∈ seg.data then .wild seg.data
  else .lit seg

/-- Read a pattern string; the pattern is taken relative to the working directory. -/
def parseGlob (s : String) : Glob :=
  match s.data with
  | '!' :: rest =>
    { negated := true, segs := (normalize (segments (String.mk rest))).map parseSegPat }
  | _ => { negated := false, segs := (resolve s).map parseSegPat }

/-- Try `f` on every suffix of the list, the longest first: what `*` does in a segment. -/
def anySuffix (f : List Char → Bool) : List Char → Bool
  | [] => f []
  | c :: cs => f (c :: cs) || anySuffix f cs

/-- Match the characters of a segment against a segment pattern with `*`. -/
def wildMatch : List Char → List Char → Bool
  | [] => fun cs => cs.isEmpty
  | p :: ps => fun cs =>
    if p = '*' then anySuffix (wildMatch ps) cs
    else
      match cs with
      | [] => false
      | c :: rest => p == c && wildMatch ps rest

/-- A name that starts with a dot. -/
def isDotName (seg : String) : Bool :=
  match seg.data with
  | '.' :: _ => true
  | _ => false

/-- Match one path segment against one pattern segment other than `**`.  Without the
`dot` option a wildcard segment does not match a name that starts with a dot. -/
def segMatch (dot : Bool) : SegPat → String → Bool
  | .lit s, seg => s == seg
  | .wild chars, seg => (dot || !isDotName seg || chars.head? == some '.') && wildMatch chars seg.data
  | .globstar, _ => false

/-- Try `f` after skipping zero or more leading segments: what `**` does.  Without the
`dot` option a skipped segment may not start with a dot. -/
def anyDepth (dot : Bool) (f : Path → Bool) : Path → Bool
  | [] => f []
  | seg :: rest => f (seg :: rest) || ((dot || !isDotName seg) && anyDepth dot f rest)

/-- Match a path against the segments of a pattern. -/
def matchSegs (dot : Bool) : List SegPat → Path → Bool
  | [] => fun path => path.isEmpty
  | .globstar :: ps => fun path => anyDepth dot (matchSegs dot ps) path
  | p :: ps => fun path =>
    match path with
    | [] => false
    | seg :: rest => segMatch dot p seg && matchSegs dot ps rest

/-- A pattern without wildcards, which can match one path only. -/
def Glob.isSingular (g : Glob) : Bool :=
  g.segs.all fun p => match p with
    | .lit _ => true
    | _ => false

/-- The directory part of a pattern before its first wildcard (`glob-parent`): the base
of the files the pattern yields.  For a pattern without wildcards it is the directory of
the file. -/
def globBase : List SegPat → Path
  | [] => []
  | [_] => []
  | .lit s :: rest => s :: globBase rest
  | _ :: _ => []

/-! ## The gulpfile -/

/-- The record `paths.src`. -/
structure SrcPaths where
  base : String
  css : String
  scss : String
  node_modules : String
  vendor : String
  deriving DecidableEq, Repr

/-- The record `paths`. -/
structure Paths where
  src : SrcPaths
  deriving DecidableEq, Repr

/-- The constant `paths` of the gulpfile. -/
def paths : Paths :=
  { src :=
      { base := "./"
        css := "./css"
        scss := "./scss"
        node_modules := "./node_modules/"
        vendor := "./vendor" } }

/-- The object handed to a `rename` callback: the parts of the relative path. -/
structure PathRecord where
  dirname : String
  basename : String
  extname : String
  deriving DecidableEq, Repr

/-- The handler given to `.on('error', ...)`. -/
inductive ErrorHandler where
  | logError
  deriving DecidableEq, Repr

/-- A stage of a stream, as it is constructed in the gulpfile. -/
inductive Stage where
  | wait (ms : Nat)
  | sourcemapsInit
  | sass (onError : Option ErrorHandler)
  | autoprefixer (overrideBrowserslist : List String)
  | sourcemapsWrite (destPath : String)
  | dest (folder : String)
  | browserSyncStream
  | cleanCss
  | rename (callback : PathRecord → PathRecord)

/-- The plugin a stage belongs to. -/
def Stage.plugin : Stage → String
  | .wait _ => "gulp-wait"
  | .sourcemapsInit => "gulp-sourcemaps:init"
  | .sass _ => "gulp-sass"
  | .autoprefixer _ => "gulp-autoprefixer"
  | .sourcemapsWrite _ => "gulp-sourcemaps:write"
  | .dest _ => "gulp.dest"
  | .browserSyncStream => "browser-sync:stream"
  | .cleanCss => "gulp-clean-css"
  | .rename _ => "gulp-rename"

/-- A stream under construction: the patterns given to `gulp.src`, its `allowEmpty`
option, and the stages piped so far. -/
structure Pipeline where
  globs : List String
  allowEmpty : Bool
  stages : List Stage

/-- The call `gulp.src(globs)` without options: `allowEmpty` keeps its default. -/
def gulp.src (globs : List String) : Pipeline :=
  { globs := globs, allowEmpty := false, stages := [] }

/-- The call `stream.pipe(stage)`: the stage is added after those already there. -/
def Pipeline.pipe (p : Pipeline) (stage : Stage) : Pipeline :=
  { p with stages := p.stages ++ [stage] }

/-- The body of the task `scss`. -/
def scss : Pipeline :=
  (((((((gulp.src
    [ paths.src.scss ++ "/custom/**/*.scss",
      paths.src.scss ++ "/volt/**/*.scss",
      paths.src.scss ++ "/volt.scss",
      "!**/node_modules/**" ]).pipe
    (.wait 500)).pipe
    .sourcemapsInit).pipe
    (.sass (some .logError))).pipe
    (.autoprefixer ["> 1%"])).pipe
    (.sourcemapsWrite ".")).pipe
    (.dest paths.src.css)).pipe
    .browserSyncStream

/-- The callback given to `rename` in `minify:css`: it assigns `path.extname` and
returns nothing, so the record it was given is used, with that one field changed. -/
def minifyRename (path : PathRecord) : PathRecord :=
  { path with extname := ".min.css" }

/-- The body of the task `minify:css`. -/
def minifyCss : Pipeline :=
  (((gulp.src
    [ paths.src.css ++ "/volt.css",
      "!**/node_modules/**" ]).pipe
    .cleanCss).pipe
    (.rename minifyRename)).pipe
    (.dest paths.src.css)

/-- A task function: a function that returns a stream, or a composition made by
`gulp.series`.  `displayName` is the name the runner reports it under. -/
inductive TaskFn where
  | fn (displayName : String) (body : Pipeline)
  | series (displayName : String) (tasks : List TaskFn)

/-- The task registry: the tasks registered so far, with their names. -/
abbrev Registry := List (String × TaskFn)

/-- The task registered under a name, the last registration first. -/
def Registry.get (reg : Registry) (name : String) : Option TaskFn :=
  match reg with
  | [] => none
  | (n, t) :: rest => if n = name then some t else Registry.get rest name

/-- The call `gulp.task(name, fn)`: the function is registered under the name, which
becomes its display name. -/
def gulp.task (reg : Registry) (name : String) (t : TaskFn) : Registry :=
  match t with
  | .fn _ body => (name, .fn name body) :: reg
  | .series _ tasks => (name, .series name tasks) :: reg

/-- Look up every name of a list; `none` when one is not registered. -/
def Registry.getAll (reg : Registry) : List String → Option (List TaskFn)
  | [] => some []
  | name :: rest =>
    match Registry.get reg name, Registry.getAll reg rest with
    | some t, some ts => some (t :: ts)
    | _, _ => none

/-- The call `gulp.series(names...)`: the names are looked up when the composition is
made, and a name that is not registered is an error. -/
def gulp.series (reg : Registry) (names : List String) : Option TaskFn :=
  (Registry.getAll reg names).map (TaskFn.series "<series>")

/-- The registry after the three `gulp.task` calls of the gulpfile, in their order. -/
def gulpfile : Option Registry :=
  let reg1 := gulp.task [] "scss" (.fn "<anonymous>" scss)
  let reg2 := gulp.task reg1 "minify:css" (.fn "<anonymous>" minifyCss)
  (gulp.series reg2 ["scss", "minify:css"]).map (gulp.task reg2 "default")

/-- The registry of the gulpfile; empty if a `gulp.series` name were not registered. -/
def registry : Registry :=
  gulpfile.getD []

/-! ## Files, the file system and the external tools -/

/-- The contents of a file. -/
abbrev Content := String

/-- The files under the working directory: paths with their contents.  When a path
occurs twice the first occurrence is the file. -/
abbrev FS := List (Path × Content)

/-- The contents of the file at a path, if there is one. -/
def readFile (fs : FS) (path : Path) : Option Content :=
  match fs with
  | [] => none
  | (p, c) :: rest => if p = path then some c else readFile rest path

/-- Write a file: it replaces the file at the path when there is one. -/
def writeFile (fs : FS) (path : Path) (contents : Content) : FS :=
  (path, contents) :: fs.filter fun entry => decide (entry.1 ≠ path)

/-- Write files one after the other. -/
def writeAll (fs : FS) (outputs : List (Path × Content)) : FS :=
  outputs.foldl (fun acc out => writeFile acc out.1 out.2) fs

/-- A file in a stream (a vinyl file): its base directory, its path relative to the
base, its contents, and whether source-map tracking is on for it. -/
structure VFile where
  base : Path
  relative : Path
  contents : Content
  sourceMap : Bool
  deriving DecidableEq, Repr

/-- The path of a file in a stream. -/
def VFile.path (f : VFile) : Path :=
  f.base ++ f.relative

/-- What the style compiler returns for one file: the compiled style sheet, nothing for a
file it passes over (one whose name starts with an underscore), or a failure. -/
inductive SassResult where
  | css (contents : Content)
  | skipped
  | error (message : String)
  deriving DecidableEq, Repr

/-- What happens to the rest of the stream once a failure of the compiler stage has been
handed to the handler: the stage goes on with the next file, or the stream ends there.
This is decided inside the compiler plugin and the stream library, not in the gulpfile. -/
inductive AfterError where
  | nextFile
  | endStream
  deriving DecidableEq, Repr

/-- The external tools.  Each is a function of the file it is given and of the file
system it runs on, which it may read: the style compiler and the minifier resolve the
imports of a style sheet from disk. -/
structure Transformers where
  sass : FS → Path → Content → SassResult
  afterLoggedError : AfterError
  autoprefix : FS → List String → Content → Content
  sourceMap : FS → Path → Content → Content
  sourceMapComment : FS → Path → Content → Content
  cleanCss : FS → Path → Content → Content

/-- Two file systems that hold the same files outside a directory of the working
directory. -/
def agreeOutside (dir : String) (fs1 fs2 : FS) : Prop :=
  ∀ path : Path, path.head? ≠ some dir → readFile fs1 path = readFile fs2 path

/-- Tools that read nothing inside a directory, the file they are given apart: on file
systems that hold the same files outside the directory they do the same. -/
def Transformers.readOutside (T : Transformers) (dir : String) : Prop :=
  ∀ fs1 fs2 : FS, agreeOutside dir fs1 fs2 →
    T.sass fs1 = T.sass fs2 ∧ T.autoprefix fs1 = T.autoprefix fs2 ∧
    T.sourceMap fs1 = T.sourceMap fs2 ∧ T.sourceMapComment fs1 = T.sourceMapComment fs2 ∧
    T.cleanCss fs1 = T.cleanCss fs2

/-! ## `gulp.src` -/

/-- The positive patterns of a list, each with the negative patterns that follow it in
the list: a negative pattern applies to the positive patterns before it. -/
def srcStreams : List Glob → List (Glob × List Glob)
  | [] => []
  | g :: rest =>
    if g.negated then srcStreams rest
    else (g, rest.filter fun n => n.negated) :: srcStreams rest

/-- Whether a path is selected by a positive pattern and none of its negative patterns.
Negative patterns are matched with the `dot` option on. -/
def selects (g : Glob) (ignore : List Glob) (path : Path) : Bool :=
  matchSegs false g.segs path && !(ignore.any fun n => matchSegs true n.segs path)

/-- The files one positive pattern yields, with the base of the pattern. -/
def globFiles (fs : FS) (g : Glob) (ignore : List Glob) : List VFile :=
  (fs.filter fun entry => selects g ignore entry.1).map fun entry =>
    { base := globBase g.segs
      relative := entry.1.drop (globBase g.segs).length
      contents := entry.2
      sourceMap := false }

/-- The message of `gulp.src` for a pattern without wildcards that found no file. -/
def singularGlobError (g : String) : String :=
  "File not found with singular glob: " ++ g ++
    " (if this was purposeful, use allowEmpty option)"

/-- The streams of the positive patterns, one after the other.  A pattern without
wildcards that finds no file is an error unless `allowEmpty` is set: this is how
`gulp.src` is documented since gulp 4, the version that introduced `gulp.series`. -/
def readStreams (fs : FS) (allowEmpty : Bool) : List (Glob × List Glob) →
    Except String (List VFile)
  | [] => .ok []
  | (g, ignore) :: rest =>
    let found := globFiles fs g ignore
    if found.isEmpty && g.isSingular && !allowEmpty then
      .error (singularGlobError (joinSegments (g.segs.map fun p =>
        match p with
        | .lit s => s
        | .wild chars => String.mk chars
        | .globstar => "**")))
    else
      match readStreams fs allowEmpty rest with
      | .ok more => .ok (found ++ more)
      | .error e => .error e

/-- Keep the first file of each path. -/
def uniqueByPath (seen : List Path) : List VFile → List VFile
  | [] => []
  | f :: rest =>
    if f.path ∈ seen then uniqueByPath seen rest
    else f :: uniqueByPath (f.path :: seen) rest

/-- The stream `gulp.src(globs)` yields on a file system, or its error. -/
def srcFiles (fs : FS) (p : Pipeline) : Except String (List VFile) :=
  match readStreams fs p.allowEmpty (srcStreams (p.globs.map parseGlob)) with
  | .ok files => .ok (uniqueByPath [] files)
  | .error e => .error e

/-! ## The stages -/

/-- The state of a running stream: the files in it, the file system, what was written
and announced to the live-reload channel, what was logged, and the error raised. -/
structure Run where
  files : List VFile
  fs : FS
  written : List Path
  reloaded : List Path
  log : List String
  error : Option String

/-- The compiler stage on the files of a stream, on a file system: the files it emits,
the messages handed to the handler, and the error raised when there is no handler. -/
def sassFiles (T : Transformers) (fs : FS) (onError : Option ErrorHandler) :
    List VFile → List VFile × List String × Option String
  | [] => ([], [], none)
  | f :: rest =>
    match T.sass fs f.path f.contents with
    | .css c =>
      let (out, log, err) := sassFiles T fs onError rest
      ({ f with relative := replaceExt f.relative ".css", contents := c } :: out, log, err)
    | .skipped => sassFiles T fs onError rest
    | .error msg =>
      match onError with
      | none => ([], [], some msg)
      | some .logError =>
        match T.afterLoggedError with
        | .nextFile =>
          let (out, log, err) := sassFiles T fs onError rest
          (out, msg :: log, err)
        | .endStream => ([], [msg], none)

/-- The relative path with a suffix added to its file name. -/
def addSuffix : Path → String → Path
  | [], _ => []
  | [name], suffix => [name ++ suffix]
  | seg :: rest, suffix => seg :: addSuffix rest suffix

/-- The source-map write stage on one file: the map file goes first, under `destPath`
next to the file, then the file itself with the map comment. -/
def writeMap (T : Transformers) (fs : FS) (destPath : String) (f : VFile) : List VFile :=
  if f.sourceMap then
    [ { f with
          relative := addSuffix (normalize (segments destPath ++ f.relative)) ".map"
          contents := T.sourceMap fs f.relative f.contents
          sourceMap := false },
      { f with contents := T.sourceMapComment fs f.relative f.contents } ]
  else [f]

/-- The record a `rename` callback receives for a relative path. -/
def parsePath (relative : Path) : PathRecord :=
  { dirname := joinSegments relative.dropLast
    basename := stem (relative.getLast?.getD "")
    extname := extname (relative.getLast?.getD "") }

/-- The relative path made from a record: `path.join(dirname, basename + extname)`. -/
def joinRecord (r : PathRecord) : Path :=
  resolve (r.dirname ++ "/" ++ (r.basename ++ r.extname))

/-- The path a file is written to by `gulp.dest(folder)`. -/
def destPath (folder : String) (relative : Path) : Path :=
  normalize (segments folder ++ relative)

/-- The effect of one stage on a running stream.  A tool reads the file system as it is
when its stage runs. -/
def applyStage (T : Transformers) (stage : Stage) (r : Run) : Run :=
  match r.error with
  | some _ => r
  | none =>
    match stage with
    | .wait _ => r
    | .sourcemapsInit => { r with files := r.files.map fun f => { f with sourceMap := true } }
    | .sass onError =>
      match sassFiles T r.fs onError r.files with
      | (out, log, err) => { r with files := out, log := r.log ++ log, error := err }
    | .autoprefixer browsers =>
      { r with
          files := r.files.map fun f =>
            { f with contents := T.autoprefix r.fs browsers f.contents } }
    | .sourcemapsWrite dir => { r with files := r.files.flatMap (writeMap T r.fs dir) }
    | .dest folder =>
      let outputs := r.files.map fun f => (destPath folder f.relative, f.contents)
      { r with
          files := r.files.map fun f => { f with base := resolve folder }
          fs := writeAll r.fs outputs
          written := r.written ++ outputs.map Prod.fst }
    | .browserSyncStream => { r with reloaded := r.reloaded ++ r.files.map VFile.path }
    | .cleanCss =>
      { r with
          files := r.files.map fun f => { f with contents := T.cleanCss r.fs f.path f.contents } }
    | .rename callback =>
      { r with files := r.files.map fun f => { f with relative := joinRecord (callback (parsePath f.relative)) } }

/-- Apply stages to a running stream, in the order of the list. -/
def runStages (T : Transformers) (stages : List Stage) (r : Run) : Run :=
  stages.foldl (fun acc stage => applyStage T stage acc) r

/-- A stream that starts with the given files on a file system. -/
def Run.start (files : List VFile) (fs : FS) : Run :=
  { files := files, fs := fs, written := [], reloaded := [], log := [], error := none }

/-- Run a stream: read the sources, then apply the stages in their order. -/
def runPipeline (T : Transformers) (p : Pipeline) (fs : FS) : Run :=
  match srcFiles fs p with
  | .error e => { files := [], fs := fs, written := [], reloaded := [], log := [], error := some e }
  | .ok files => runStages T p.stages (Run.start files fs)

/-- The files the stages of `scss` write, in their order, for the source files of the
stream and the file system the tools read: what `applyStage` computes from the compiler
stage to `gulp.dest` (`scss_stages_run`). -/
def scssOutputs (T : Transformers) (files : List VFile) (fs : FS) : List (Path × Content) :=
  ((((sassFiles T fs (some .logError)
    (files.map fun f => { f with sourceMap := true })).1.map fun f =>
      { f with contents := T.autoprefix fs ["> 1%"] f.contents }).flatMap
        (writeMap T fs ".")).map fun f => (destPath "./css" f.relative, f.contents))

/-! ## The task runner -/

/-- What the runner reports about a task. -/
inductive Event where
  | started (task : String)
  | finished (task : String)
  | errored (task : String) (message : String)
  deriving DecidableEq, Repr

/-- The task a report is about. -/
def Event.task : Event → String
  | .started task => task
  | .finished task => task
  | .errored task _ => task

/-- The state of a build: the file system, the reports of the runner in their order, the
paths written, the live-reload announcements and the messages logged. -/
structure World where
  fs : FS
  trace : List Event
  written : List Path
  reloaded : List Path
  log : List String

/-- A build that starts on a file system. -/
def World.init (fs : FS) : World :=
  { fs := fs, trace := [], written := [], reloaded := [], log := [] }

/-- Add a report to the trace. -/
def World.report (w : World) (e : Event) : World :=
  { w with trace := w.trace ++ [e] }

mutual
/-- Run a task function to its completion.  The second component is the error it ended
with, if any. -/
def runTask (T : Transformers) : TaskFn → World → World × Option String
  | .fn name body, w =>
    let r := runPipeline T body w.fs
    let w1 : World :=
      { fs := r.fs
        trace := w.trace ++ [Event.started name]
        written := w.written ++ r.written
        reloaded := w.reloaded ++ r.reloaded
        log := w.log ++ r.log }
    match r.error with
    | none => (w1.report (.finished name), none)
    | some e => (w1.report (.errored name e), some e)
  | .series name tasks, w =>
    match runSeries T tasks (w.report (.started name)) with
    | (w1, none) => (w1.report (.finished name), none)
    | (w1, some e) => (w1.report (.errored name e), some e)
/-- Run task functions one after the other; the first error stops the series. -/
def runSeries (T : Transformers) : List TaskFn → World → World × Option String
  | [], w => (w, none)
  | t :: rest, w =>
    match runTask T t w with
    | (w1, none) => runSeries T rest w1
    | (w1, some e) => (w1, some e)
end

/-- Run the task registered under a name on a file system (`gulp <name>`). -/
def runNamed (T : Transformers) (name : String) (fs : FS) : Option (World × Option String) :=
  (Registry.get registry name).map fun t => runTask T t (World.init fs)

/-- The file system after `gulp default`. -/
def runDefault (T : Transformers) (fs : FS) : FS :=
  match runNamed T "default" fs with
  | some (w, _) => w.fs
  | none => fs

/-- Whether a path is selected by a stream: by one of its positive patterns and none of
the negative patterns that apply to it. -/
def Pipeline.selects (p : Pipeline) (path : Path) : Bool :=
  (srcStreams (p.globs.map parseGlob)).any fun s => Gulpfile.selects s.1 s.2 path

/-! ## Sample tools and files

Tools that mark what they did to the contents, for evaluating the build on examples. -/

/-- A compiler that reads only the file it is given: it fails on the contents `!`, passes
over files whose name starts with an underscore, and otherwise marks the contents. -/
def sampleSass (_fs : FS) (path : Path) (contents : Content) : SassResult :=
  if contents = "!" then .error "Error: expected selector."
  else
    match (path.getLast?.getD "").data with
    | '_' :: _ => .skipped
    | _ => .css ("css(" ++ contents ++ ")")

/-- Sample tools whose compiler stage goes on after a logged failure. -/
def sampleTools : Transformers :=
  { sass := sampleSass
    afterLoggedError := .nextFile
    autoprefix := fun _ _ c => "prefixed(" ++ c ++ ")"
    sourceMap := fun _ _ c => "map(" ++ c ++ ")"
    sourceMapComment := fun _ rel c =>
      c ++ "/*# sourceMappingURL=" ++ joinSegments rel ++ ".map */"
    cleanCss := fun _ _ c => "min(" ++ c ++ ")" }

/-- Sample tools whose compiler stage ends the stream after a logged failure. -/
def sampleToolsEnding : Transformers :=
  { sampleTools with afterLoggedError := .endStream }

/-- A compiler for sources that import `../css/volt.min`: the compiled style sheet starts
with what is at `css/volt.min.css`, and the compile fails when nothing is there. -/
def importingSass (fs : FS) (_path : Path) (contents : Content) : SassResult :=
  match readFile fs ["css", "volt.min.css"] with
  | some imported => .css ("css(" ++ imported ++ contents ++ ")")
  | none => .error "Error: stylesheet to import not found."

/-- Sample tools whose compiler resolves an import of `../css/volt.min` from disk. -/
def sampleToolsImporting : Transformers :=
  { sampleTools with sass := importingSass }

/-- A tree whose entry point imports `../css/volt.min`, with a minified file in place. -/
def sampleTreeImporting : FS :=
  [ (["scss", "volt.scss"], "a"),
    (["css", "volt.min.css"], "b") ]

/-- A source tree with the entry point, a style file in each of the two subtrees, and a
text file. -/
def sampleTree : FS :=
  [ (["scss", "volt.scss"], "a"),
    (["scss", "custom", "forms", "input.scss"], "b"),
    (["scss", "custom", "notes.txt"], "c"),
    (["scss", "volt", "_variables.scss"], "d") ]

/-- A source tree in which the first file of the stream fails to compile. -/
def sampleTreeBroken : FS :=
  [ (["scss", "volt.scss"], "a"),
    (["scss", "custom", "broken.scss"], "!"),
    (["scss", "custom", "forms.scss"], "b") ]

/-- A tree with the entry point and a compiled style sheet in place. -/
def sampleTreeCompiled : FS :=
  [ (["scss", "volt.scss"], "a"),
    (["css", "volt.css"], "b") ]

/-! ## Lemmas on glob matching -/

theorem anySuffix_iff (f : List Char → Bool) (cs : List Char) :
    anySuffix f cs = true ↔ ∃ pre suf, cs = pre ++ suf ∧ f suf = true := by
  induction cs with
  | nil =>
    simp only [anySuffix]
    constructor
    · intro h; exact ⟨[], [], rfl, h⟩
    · rintro ⟨pre, suf, h, hf⟩
      have : suf = [] := (List.append_eq_nil.mp h.symm).2
      subst this; exact hf
  | cons c cs ih =>
    simp only [anySuffix, Bool.or_eq_true, ih]
    constructor
    · rintro (h | ⟨pre, suf, h, hf⟩)
      · exact ⟨[], c :: cs, rfl, h⟩
      · exact ⟨c :: pre, suf, by simp [h], hf⟩
    · rintro ⟨pre, suf, h, hf⟩
      cases pre with
      | nil => left; simp at h; rw [h]; exact hf
      | cons d pre =>
        right
        simp at h
        exact ⟨pre, suf, h.2, hf⟩

theorem wildMatch_literal (ps cs : List Char) (h : '*' ∉ ps) :
    wildMatch ps cs = true ↔ cs = ps := by
  induction ps generalizing cs with
  | nil => cases cs <;> simp [wildMatch]
  | cons p ps ih =>
    have hp : p ≠ '*' := fun e => h (by simp [e])
    have hps : '*' ∉ ps := fun e => h (by simp [e])
    cases cs with
    | nil => simp [wildMatch, hp]
    | cons c cs =>
      simp only [wildMatch, hp, if_false, Bool.and_eq_true, beq_iff_eq, ih cs hps]
      constructor
      · rintro ⟨rfl, rfl⟩; rfl
      · intro e; injection e with e1 e2; exact ⟨e1.symm, e2⟩

theorem wildMatch_star_suffix (ps cs : List Char) (h : '*' ∉ ps) :
    wildMatch ('*' :: ps) cs = true ↔ ps <:+ cs := by
  simp only [wildMatch, if_true, anySuffix_iff]
  constructor
  · rintro ⟨pre, suf, rfl, hf⟩
    rw [wildMatch_literal ps suf h] at hf
    exact ⟨pre, by rw [hf]⟩
  · rintro ⟨pre, rfl⟩
    exact ⟨pre, ps, rfl, (wildMatch_literal ps ps h).mpr rfl⟩

theorem anyDepth_iff (dot : Bool) (f : Path → Bool) (path : Path) :
    anyDepth dot f path = true ↔
      ∃ pre suf, path = pre ++ suf ∧ (∀ s ∈ pre, (dot || !isDotName s) = true) ∧ f suf = true := by
  induction path with
  | nil =>
    simp only [anyDepth]
    constructor
    · intro h; exact ⟨[], [], rfl, by simp, h⟩
    · rintro ⟨pre, suf, h, -, hf⟩
      have : suf = [] := (List.append_eq_nil.mp h.symm).2
      subst this; exact hf
  | cons seg rest ih =>
    simp only [anyDepth, Bool.or_eq_true, Bool.and_eq_true, ih]
    constructor
    · rintro (h | ⟨hd, pre, suf, h, hpre, hf⟩)
      · exact ⟨[], seg :: rest, rfl, by simp, h⟩
      · refine ⟨seg :: pre, suf, by simp [h], ?_, hf⟩
        intro s hs
        rcases List.mem_cons.mp hs with rfl | hs
        · simpa using hd
        · exact hpre s hs
    · rintro ⟨pre, suf, h, hpre, hf⟩
      cases pre with
      | nil => left; simp at h; rw [h]; exact hf
      | cons d pre =>
        right
        simp at h
        obtain ⟨rfl, h⟩ := h
        refine ⟨?_, pre, suf, h, fun s hs => hpre s (List.mem_cons_of_mem _ hs), hf⟩
        simpa using hpre seg (List.mem_cons_self _ _)

/-- The exclusion pattern `**/node_modules/**` matches the paths with a segment
`node_modules`. -/
theorem nodeModules_match_iff (path : Path) :
    matchSegs true [.globstar, .lit "node_modules", .globstar] path = true ↔
      "node_modules" ∈ path := by
  simp only [matchSegs, anyDepth_iff]
  constructor
  · rintro ⟨pre, suf, rfl, -, hf⟩
    cases suf with
    | nil => simp at hf
    | cons seg rest =>
      simp only [segMatch, Bool.and_eq_true, beq_iff_eq] at hf
      simp [← hf.1]
  · intro h
    obtain ⟨pre, rest, rfl⟩ := List.append_of_mem h
    refine ⟨pre, "node_modules" :: rest, rfl, by simp, ?_⟩
    simp only [segMatch, Bool.and_eq_true, beq_iff_eq, true_and, anyDepth_iff]
    exact ⟨rest, [], by simp, by simp, rfl⟩

/-- The positive patterns of `scss`, each with the exclusion pattern. -/
theorem scss_streams :
    srcStreams (scss.globs.map parseGlob) =
      [ (⟨false, [.lit "scss", .lit "custom", .globstar, .wild ['*', '.', 's', 'c', 's', 's']]⟩,
          [⟨true, [.globstar, .lit "node_modules", .globstar]⟩]),
        (⟨false, [.lit "scss", .lit "volt", .globstar, .wild ['*', '.', 's', 'c', 's', 's']]⟩,
          [⟨true, [.globstar, .lit "node_modules", .globstar]⟩]),
        (⟨false, [.lit "scss", .lit "volt.scss"]⟩,
          [⟨true, [.globstar, .lit "node_modules", .globstar]⟩]) ] := by
  decide

/-- The positive pattern of `minify:css`, with the exclusion pattern. -/
theorem minifyCss_streams :
    srcStreams (minifyCss.globs.map parseGlob) =
      [ (⟨false, [.lit "css", .lit "volt.css"]⟩,
          [⟨true, [.globstar, .lit "node_modules", .globstar]⟩]) ] := by
  decide

/-- What a subtree pattern `./scss/<d>/**/*.scss` matches. -/
theorem subtree_match_iff (d : String) (path : Path) :
    matchSegs false [.lit "scss", .lit d, .globstar, .wild ['*', '.', 's', 'c', 's', 's']] path = true ↔
      ∃ dirs name, path = "scss" :: d :: (dirs ++ [name]) ∧
        (∀ s ∈ dirs, isDotName s = false) ∧ isDotName name = false ∧
        ['.', 's', 'c', 's', 's'] <:+ name.data := by
  constructor
  · intro h
    match path, h with
    | [], h => simp [matchSegs] at h
    | [_], h => simp [matchSegs] at h
    | seg1 :: seg2 :: rest, h =>
      simp only [matchSegs, segMatch, Bool.and_eq_true, beq_iff_eq, anyDepth_iff] at h
      obtain ⟨rfl, rfl, pre, suf, rfl, hpre, hsuf⟩ := h
      match suf, hsuf with
      | [], hsuf => simp at hsuf
      | _ :: _ :: _, hsuf => simp [matchSegs] at hsuf
      | [name], hsuf =>
        simp only [matchSegs, segMatch, Bool.and_eq_true, List.isEmpty_nil, and_true] at hsuf
        refine ⟨pre, name, rfl, ?_, ?_, ?_⟩
        · intro s hs; simpa using hpre s hs
        · simpa using hsuf.1
        · exact (wildMatch_star_suffix _ _ (by decide)).mp hsuf.2
  · rintro ⟨dirs, name, rfl, hdirs, hname, hsuf⟩
    simp only [matchSegs, segMatch, Bool.and_eq_true, beq_iff_eq, anyDepth_iff, true_and]
    refine ⟨dirs, [name], rfl, ?_, ?_⟩
    · intro s hs; simp [hdirs s hs]
    · simp only [matchSegs, segMatch, Bool.and_eq_true, List.isEmpty_nil, and_true]
      exact ⟨by simp [hname], (wildMatch_star_suffix _ _ (by decide)).mpr hsuf⟩

/-- What a pattern of two literal segments matches. -/
theorem literal_match_iff (dot : Bool) (a b : String) (path : Path) :
    matchSegs dot [.lit a, .lit b] path = true ↔ path = [a, b] := by
  match path with
  | [] => simp [matchSegs]
  | [x] => simp [matchSegs, segMatch]
  | [x, y] =>
    simp only [matchSegs, segMatch, Bool.and_eq_true, beq_iff_eq, List.isEmpty_nil, and_true]
    constructor
    · rintro ⟨rfl, rfl⟩; rfl
    · intro e; injection e with e1 e2; injection e2 with e2 _; exact ⟨e1.symm, e2.symm⟩
  | x :: y :: z :: rest => simp [matchSegs, segMatch]

/-- What the stream of `scss` selects: the entry point, and in the two subtrees the files
whose name ends in `.scss`, dot names and `node_modules` apart. -/
theorem scss_selects_iff (path : Path) :
    scss.selects path = true ↔
      "node_modules" ∉ path ∧
      (path = ["scss", "volt.scss"] ∨
        ∃ d dirs name, (d = "custom" ∨ d = "volt") ∧ path = "scss" :: d :: (dirs ++ [name]) ∧
          (∀ s ∈ dirs, isDotName s = false) ∧ isDotName name = false ∧
          ['.', 's', 'c', 's', 's'] <:+ name.data) := by
  simp only [Pipeline.selects, scss_streams, List.any_cons, List.any_nil, Bool.or_false,
    selects, Bool.or_eq_true, Bool.and_eq_true, Bool.not_eq_true', subtree_match_iff,
    literal_match_iff, ← Bool.not_eq_true, nodeModules_match_iff]
  constructor
  · rintro (⟨h, hn⟩ | ⟨h, hn⟩ | ⟨h, hn⟩)
    · obtain ⟨dirs, name, e, h1, h2, h3⟩ := h
      exact ⟨hn, Or.inr ⟨"custom", dirs, name, Or.inl rfl, e, by simpa using h1, by simpa using h2, h3⟩⟩
    · obtain ⟨dirs, name, e, h1, h2, h3⟩ := h
      exact ⟨hn, Or.inr ⟨"volt", dirs, name, Or.inr rfl, e, by simpa using h1, by simpa using h2, h3⟩⟩
    · exact ⟨hn, Or.inl h⟩
  · rintro ⟨hn, h | ⟨d, dirs, name, hd | hd, e, h1, h2, h3⟩⟩
    · exact Or.inr (Or.inr ⟨h, hn⟩)
    · subst hd
      exact Or.inl ⟨⟨dirs, name, e, by simpa using h1, by simpa using h2, h3⟩, hn⟩
    · subst hd
      exact Or.inr (Or.inl ⟨⟨dirs, name, e, by simpa using h1, by simpa using h2, h3⟩, hn⟩)

/-- What the stream of `minify:css` selects: the one path `css/volt.css`. -/
theorem minifyCss_selects_iff (path : Path) :
    minifyCss.selects path = true ↔ path = ["css", "volt.css"] := by
  simp only [Pipeline.selects, minifyCss_streams, List.any_cons, List.any_nil, Bool.or_false,
    selects, Bool.and_eq_true, Bool.not_eq_true', literal_match_iff, ← Bool.not_eq_true,
    nodeModules_match_iff]
  constructor
  · exact fun h => h.1
  · rintro rfl
    exact ⟨rfl, by decide⟩

/-- A path that starts with `css` is not selected by `scss`. -/
theorem scss_selects_css (rest : Path) : scss.selects ("css" :: rest) = false := by
  rw [← Bool.not_eq_true, scss_selects_iff]
  rintro ⟨-, h | ⟨d, dirs, name, -, h, -⟩⟩
  · exact absurd (List.cons.inj h).1 (by decide)
  · exact absurd (List.cons.inj h).1 (by decide)

/-! ## Lemmas on the file system and on `gulp.src` -/

theorem readFile_writeFile (fs : FS) (path : Path) (c : Content) (q : Path) :
    readFile (writeFile fs path c) q = if path = q then some c else readFile fs q := by
  by_cases h : path = q
  · simp [writeFile, readFile, h]
  · simp only [writeFile, readFile, h, if_false]
    induction fs with
    | nil => rfl
    | cons e rest ih =>
      obtain ⟨p, d⟩ := e
      by_cases hp : p = path
      · subst hp
        simpa [List.filter_cons, readFile, h] using ih
      · by_cases hq : p = q
        · subst hq
          simp [List.filter_cons, readFile, hp]
        · simpa [List.filter_cons, readFile, hp, hq] using ih

/-- Reading after a list of writes either no longer depends on the file system the writes
were made on, or returns what was there before. -/
theorem readFile_writeAll_cases (outputs : List (Path × Content)) (q : Path) :
    (∃ v, ∀ fs, readFile (writeAll fs outputs) q = v) ∨
      (∀ fs, readFile (writeAll fs outputs) q = readFile fs q) := by
  induction outputs with
  | nil => exact Or.inr fun fs => rfl
  | cons out rest ih =>
    rcases ih with ⟨v, hv⟩ | hid
    · exact Or.inl ⟨v, fun fs => hv _⟩
    · by_cases h : out.1 = q
      · refine Or.inl ⟨some out.2, fun fs => ?_⟩
        show readFile (writeAll (writeFile fs out.1 out.2) rest) q = _
        rw [hid, readFile_writeFile, if_pos h]
      · refine Or.inr fun fs => ?_
        show readFile (writeAll (writeFile fs out.1 out.2) rest) q = _
        rw [hid, readFile_writeFile, if_neg h]

/-- Writing the same files again changes nothing that can be read. -/
theorem readFile_writeAll_twice (fs : FS) (outputs : List (Path × Content)) (q : Path) :
    readFile (writeAll (writeAll fs outputs) outputs) q = readFile (writeAll fs outputs) q := by
  rcases readFile_writeAll_cases outputs q with ⟨v, hv⟩ | hid
  · rw [hv, hv]
  · rw [hid]

/-- Reading after a list of writes depends on the file system only through what could be
read there. -/
theorem readFile_writeAll_congr (fs1 fs2 : FS) (outputs : List (Path × Content)) (q : Path)
    (h : readFile fs1 q = readFile fs2 q) :
    readFile (writeAll fs1 outputs) q = readFile (writeAll fs2 outputs) q := by
  rcases readFile_writeAll_cases outputs q with ⟨v, hv⟩ | hid
  · rw [hv, hv]
  · rw [hid, hid, h]

theorem globFiles_writeFile (fs : FS) (g : Glob) (ignore : List Glob) (path : Path) (c : Content)
    (h : selects g ignore path = false) :
    globFiles (writeFile fs path c) g ignore = globFiles fs g ignore := by
  unfold globFiles writeFile
  rw [List.filter_cons]
  simp only [h, Bool.false_eq_true, if_false, List.filter_filter]
  congr 1
  apply List.filter_congr
  intro e _
  by_cases he : e.1 = path
  · simp [he, h]
  · simp [he]

theorem readStreams_writeFile (fs : FS) (allowEmpty : Bool) (streams : List (Glob × List Glob))
    (path : Path) (c : Content)
    (h : (streams.any fun s => selects s.1 s.2 path) = false) :
    readStreams (writeFile fs path c) allowEmpty streams = readStreams fs allowEmpty streams := by
  induction streams with
  | nil => rfl
  | cons s rest ih =>
    obtain ⟨g, ignore⟩ := s
    simp only [List.any_cons, Bool.or_eq_false_iff] at h
    simp only [readStreams, globFiles_writeFile fs g ignore path c h.1, ih h.2]

/-- A write to a path the stream does not select does not change what `gulp.src` yields. -/
theorem srcFiles_writeFile (fs : FS) (p : Pipeline) (path : Path) (c : Content)
    (h : p.selects path = false) :
    srcFiles (writeFile fs path c) p = srcFiles fs p := by
  unfold srcFiles
  rw [readStreams_writeFile fs p.allowEmpty _ path c h]

/-- Writes to paths the stream does not select do not change what `gulp.src` yields. -/
theorem srcFiles_writeAll (fs : FS) (p : Pipeline) (outputs : List (Path × Content))
    (h : ∀ out ∈ outputs, p.selects out.1 = false) :
    srcFiles (writeAll fs outputs) p = srcFiles fs p := by
  induction outputs generalizing fs with
  | nil => rfl
  | cons out rest ih =>
    show srcFiles (writeAll (writeFile fs out.1 out.2) rest) p = _
    rw [ih _ (fun o ho => h o (List.mem_cons_of_mem _ ho)),
      srcFiles_writeFile fs p out.1 out.2 (h out (List.mem_cons_self _ _))]

theorem uniqueByPath_seen (seen : List Path) (files : List VFile)
    (h : ∀ f ∈ files, f.path ∈ seen) : uniqueByPath seen files = [] := by
  induction files with
  | nil => rfl
  | cons f rest ih =>
    simp only [uniqueByPath, h f (List.mem_cons_self _ _), if_true]
    exact ih fun g hg => h g (List.mem_cons_of_mem _ hg)

theorem readFile_eq_head_filter (fs : FS) (q : Path) :
    readFile fs q = ((fs.filter fun e => decide (e.1 = q)).head?).map Prod.snd := by
  induction fs with
  | nil => rfl
  | cons e rest ih =>
    obtain ⟨p, d⟩ := e
    by_cases hp : p = q
    · simp [readFile, List.filter_cons, hp]
    · simp [readFile, List.filter_cons, hp, ih]

theorem minifyCss_glob_selects (path : Path) :
    selects ⟨false, [.lit "css", .lit "volt.css"]⟩
        [⟨true, [.globstar, .lit "node_modules", .globstar]⟩] path
      = decide (path = ["css", "volt.css"]) := by
  rw [Bool.eq_iff_iff]
  simp only [selects, List.any_cons, List.any_nil, Bool.or_false, Bool.and_eq_true,
    Bool.not_eq_true', literal_match_iff, ← Bool.not_eq_true, nodeModules_match_iff,
    decide_eq_true_eq]
  constructor
  · exact fun h => h.1
  · rintro rfl
    exact ⟨rfl, by decide⟩

/-- The files `gulp.src` yields for `minify:css`, as a function of what is at
`css/volt.css`. -/
theorem minifyCss_srcFiles (fs : FS) :
    srcFiles fs minifyCss =
      match readFile fs ["css", "volt.css"] with
      | none => .error (singularGlobError "css/volt.css")
      | some c => .ok [⟨["css"], ["volt.css"], c, false⟩] := by
  unfold srcFiles
  rw [minifyCss_streams]
  simp only [readStreams, globFiles, minifyCss_glob_selects]
  rw [readFile_eq_head_filter]
  have hall : ∀ e ∈ fs.filter (fun e => decide (e.1 = ["css", "volt.css"])),
      e.1 = ["css", "volt.css"] := by
    intro e he
    simpa using (List.mem_filter.mp he).2
  generalize fs.filter (fun e => decide (e.1 = ["css", "volt.css"])) = found at hall
  cases found with
  | nil => rfl
  | cons e rest =>
    have he := hall e (List.mem_cons_self _ _)
    obtain ⟨p, c⟩ := e
    simp only at he
    subst he
    simp only [List.map_cons, List.isEmpty_cons, Bool.false_and, Bool.false_eq_true, if_false,
      List.append_nil, List.head?_cons, Option.map_some']
    have hrest : uniqueByPath [["css", "volt.css"]]
        (rest.map fun entry : Path × Content =>
          ({ base := globBase [.lit "css", .lit "volt.css"]
             relative := entry.1.drop (globBase [.lit "css", .lit "volt.css"]).length
             contents := entry.2
             sourceMap := false } : VFile)) = [] := by
      apply uniqueByPath_seen
      intro f hf
      obtain ⟨e, he, rfl⟩ := List.mem_map.mp hf
      have := hall e (List.mem_cons_of_mem _ he)
      simp [VFile.path, this, globBase]
    simp only [uniqueByPath, List.not_mem_nil, if_false]
    simp only [VFile.path, globBase, List.length_cons, List.length_nil, List.drop, List.append_nil,
      List.cons_append, List.nil_append] at hrest ⊢
    rw [hrest]

/-- The run of `minify:css`, as a function of what is at `css/volt.css`. -/
theorem minifyCss_run (T : Transformers) (fs : FS) :
    runPipeline T minifyCss fs =
      match readFile fs ["css", "volt.css"] with
      | none =>
        { files := [], fs := fs, written := [], reloaded := [], log := []
          error := some (singularGlobError "css/volt.css") }
      | some c =>
        { files := [⟨["css"], ["volt.min.css"], T.cleanCss fs ["css", "volt.css"] c, false⟩]
          fs := writeFile fs ["css", "volt.min.css"] (T.cleanCss fs ["css", "volt.css"] c)
          written := [["css", "volt.min.css"]]
          reloaded := [], log := [], error := none } := by
  unfold runPipeline
  rw [minifyCss_srcFiles]
  cases readFile fs ["css", "volt.css"] with
  | none => rfl
  | some c => rfl

/-! ## Lemmas on the paths `scss` writes -/

theorem foldl_pushSegment (segs acc : List String) (h : ".." ∉ segs) :
    segs.foldl pushSegment acc =
      (segs.filter fun s => decide (s ≠ "" ∧ s ≠ ".")).reverse ++ acc := by
  induction segs generalizing acc with
  | nil => rfl
  | cons s rest ih =>
    have hs : s ≠ ".." := fun e => h (by simp [e])
    have hrest : ".." ∉ rest := fun e => h (List.mem_cons_of_mem _ e)
    rw [List.foldl_cons, ih _ hrest, List.filter_cons]
    by_cases h1 : s = "" ∨ s = "."
    · have : ¬ (s ≠ "" ∧ s ≠ ".") := by tauto
      simp [pushSegment, h1, this]
    · have : s ≠ "" ∧ s ≠ "." := by tauto
      simp [pushSegment, h1, hs, this]

/-- Without `..` segments, normalising only drops the empty and the `.` segments. -/
theorem normalize_eq_filter (segs : List String) (h : ".." ∉ segs) :
    normalize segs = segs.filter fun s => decide (s ≠ "" ∧ s ≠ ".") := by
  simp [normalize, foldl_pushSegment segs [] h]

theorem append_ne_dotdot (name suffix : String) (h : 3 ≤ suffix.length) :
    name ++ suffix ≠ ".." := by
  intro e
  have := congrArg String.length e
  rw [String.length_append] at this
  have h2 : "..".length = 2 := by decide
  omega

theorem replaceExt_no_dotdot (rel : Path) (ext : String) (hext : 3 ≤ ext.length)
    (h : ".." ∉ rel) : ".." ∉ replaceExt rel ext := by
  induction rel with
  | nil => simp [replaceExt]
  | cons s rest ih =>
    cases rest with
    | nil =>
      simp only [replaceExt, replaceExtName, List.mem_singleton]
      exact fun e => append_ne_dotdot _ _ hext e.symm
    | cons t rest =>
      simp only [replaceExt, List.mem_cons, not_or] at h ⊢
      exact ⟨h.1, by simpa using ih (by simpa using h.2)⟩

theorem addSuffix_no_dotdot (rel : Path) (suffix : String) (hs : 3 ≤ suffix.length)
    (h : ".." ∉ rel) : ".." ∉ addSuffix rel suffix := by
  induction rel with
  | nil => simp [addSuffix]
  | cons s rest ih =>
    cases rest with
    | nil =>
      simp only [addSuffix, List.mem_singleton]
      exact fun e => append_ne_dotdot _ _ hs e.symm
    | cons t rest =>
      simp only [addSuffix, List.mem_cons, not_or] at h ⊢
      exact ⟨h.1, by simpa using ih (by simpa using h.2)⟩

/-- A file written by `gulp.dest('./css')` lands under `css` when its relative path has
no `..` segment. -/
theorem destPath_css (rel : Path) (h : ".." ∉ rel) :
    ∃ rest, destPath "./css" rel = "css" :: rest := by
  have hseg : segments "./css" = [".", "css"] := by decide
  have hno : ".." ∉ [".", "css"] ++ rel := by
    simp only [List.mem_append, not_or]
    exact ⟨by decide, h⟩
  rw [destPath, hseg, normalize_eq_filter _ hno]
  exact ⟨rel.filter fun s => decide (s ≠ "" ∧ s ≠ "."), by simp [List.filter_cons]⟩

/-- With the handler `sass.logError` attached the compiler stage raises nothing. -/
theorem sassFiles_logError_error (T : Transformers) (fs : FS) (files : List VFile) :
    (sassFiles T fs (some .logError) files).2.2 = none := by
  induction files with
  | nil => rfl
  | cons f rest ih =>
    simp only [sassFiles]
    cases T.sass fs f.path f.contents with
    | css c => simpa using ih
    | skipped => simpa using ih
    | error msg =>
      cases T.afterLoggedError with
      | nextFile => simpa using ih
      | endStream => rfl

/-- Every file the compiler stage emits is one of its input files, with the extension of
its name replaced. -/
theorem sassFiles_mem (T : Transformers) (fs : FS) (onError : Option ErrorHandler)
    (files : List VFile) (g : VFile) (hg : g ∈ (sassFiles T fs onError files).1) :
    ∃ f ∈ files, g.relative = replaceExt f.relative ".css" ∧ g.sourceMap = f.sourceMap := by
  induction files with
  | nil => simp [sassFiles] at hg
  | cons f rest ih =>
    simp only [sassFiles] at hg
    cases hres : T.sass fs f.path f.contents with
    | css c =>
      rw [hres] at hg
      simp only [List.mem_cons] at hg
      rcases hg with rfl | hg
      · exact ⟨f, List.mem_cons_self _ _, rfl, rfl⟩
      · obtain ⟨f', hf', h⟩ := ih hg
        exact ⟨f', List.mem_cons_of_mem _ hf', h⟩
    | skipped =>
      rw [hres] at hg
      obtain ⟨f', hf', h⟩ := ih hg
      exact ⟨f', List.mem_cons_of_mem _ hf', h⟩
    | error msg =>
      rw [hres] at hg
      cases onError with
      | none => simp at hg
      | some handler =>
        cases handler
        simp only at hg
        cases hpol : T.afterLoggedError with
        | nextFile =>
          rw [hpol] at hg
          obtain ⟨f', hf', h⟩ := ih hg
          exact ⟨f', List.mem_cons_of_mem _ hf', h⟩
        | endStream =>
          rw [hpol] at hg
          simp at hg

/-- When no file of the stream fails, the compiler stage emits the compiled style sheet
of every file it compiles, under the name with the extension replaced. -/
theorem sassFiles_emits (T : Transformers) (fs : FS) (onError : Option ErrorHandler)
    (files : List VFile)
    (hok : ∀ g ∈ files, ∀ m, T.sass fs g.path g.contents ≠ .error m)
    (f : VFile) (hf : f ∈ files) (out : Content)
    (hcss : T.sass fs f.path f.contents = .css out) :
    { f with relative := replaceExt f.relative ".css", contents := out }
      ∈ (sassFiles T fs onError files).1 := by
  induction files with
  | nil => simp at hf
  | cons g rest ih =>
    have hrest := fun hmem => ih (fun k hk => hok k (List.mem_cons_of_mem _ hk)) hmem
    simp only [sassFiles]
    cases hres : T.sass fs g.path g.contents with
    | css c =>
      simp only [List.mem_cons]
      rcases List.mem_cons.mp hf with rfl | hf
      · rw [hcss] at hres
        injection hres with hres
        left; rw [hres]
      · exact Or.inr (hrest hf)
    | skipped =>
      rcases List.mem_cons.mp hf with rfl | hf
      · rw [hcss] at hres; cases hres
      · exact hrest hf
    | error msg => exact absurd hres (hok g (List.mem_cons_self _ _) msg)

/-- The compiler stage does the same on two file systems on which the compiler does. -/
theorem sassFiles_congr (T : Transformers) (fs1 fs2 : FS) (onError : Option ErrorHandler)
    (files : List VFile) (h : T.sass fs1 = T.sass fs2) :
    sassFiles T fs1 onError files = sassFiles T fs2 onError files := by
  induction files with
  | nil => rfl
  | cons f rest ih => simp only [sassFiles, h, ih]

/-- The run of the stages of `scss` on given source files: nothing is raised, and the
files written are those of `scssOutputs`. -/
theorem scss_stages_run (T : Transformers) (files : List VFile) (fs : FS) :
    (runStages T scss.stages (Run.start files fs)).error = none ∧
    (runStages T scss.stages (Run.start files fs)).fs = writeAll fs (scssOutputs T files fs) ∧
    (runStages T scss.stages (Run.start files fs)).written
      = (scssOutputs T files fs).map Prod.fst := by
  have herr := sassFiles_logError_error T fs (files.map fun f => { f with sourceMap := true })
  unfold scssOutputs
  generalize hs : sassFiles T fs (some ErrorHandler.logError)
    (files.map fun f => { f with sourceMap := true }) = res at herr
  obtain ⟨out, log, err⟩ := res
  simp only at herr
  subst herr
  simp [scss, Pipeline.pipe, gulp.src, runStages, applyStage, Run.start, hs, paths]

/-- The files `scss` writes land under `css` when no relative path of a source file has
a `..` segment. -/
theorem scssOutputs_css (T : Transformers) (files : List VFile) (fs : FS)
    (hrel : ∀ f ∈ files, ".." ∉ f.relative) :
    ∀ out ∈ scssOutputs T files fs, ∃ rest, out.1 = "css" :: rest := by
  intro out hout
  unfold scssOutputs at hout
  obtain ⟨f3, hf3, rfl⟩ := List.mem_map.mp hout
  obtain ⟨f2, hf2, hf3⟩ := List.mem_flatMap.mp hf3
  obtain ⟨f1, hf1, rfl⟩ := List.mem_map.mp hf2
  obtain ⟨f0, hf0, h10, -⟩ := sassFiles_mem T fs _ _ f1 hf1
  obtain ⟨f, hf, rfl⟩ := List.mem_map.mp hf0
  have hf1rel : ".." ∉ f1.relative := by
    rw [h10]
    exact replaceExt_no_dotdot _ _ (by decide) (hrel f hf)
  apply destPath_css
  unfold writeMap at hf3
  split at hf3
  · simp only [List.mem_cons, List.mem_singleton, List.not_mem_nil, or_false] at hf3
    rcases hf3 with rfl | rfl
    · apply addSuffix_no_dotdot _ _ (by decide)
      have hseg : segments "." = ["."] := by decide
      have hno : ".." ∉ ["."] ++ f1.relative := by
        simp only [List.mem_append, not_or]
        exact ⟨by decide, hf1rel⟩
      show ".." ∉ normalize (segments "." ++ f1.relative)
      rw [hseg, normalize_eq_filter _ hno]
      exact fun h => hno (List.mem_of_mem_filter h)
    · exact hf1rel
  · simp only [List.mem_singleton] at hf3
    subst hf3
    exact hf1rel

/-- The files `scss` writes are the same on two file systems on which the tools of its
stages do the same. -/
theorem scssOutputs_congr (T : Transformers) (files : List VFile) (fs1 fs2 : FS)
    (h1 : T.sass fs1 = T.sass fs2) (h2 : T.autoprefix fs1 = T.autoprefix fs2)
    (h3 : T.sourceMap fs1 = T.sourceMap fs2)
    (h4 : T.sourceMapComment fs1 = T.sourceMapComment fs2) :
    scssOutputs T files fs1 = scssOutputs T files fs2 := by
  have hw : writeMap T fs1 "." = writeMap T fs2 "." := by
    funext f
    simp only [writeMap, h3, h4]
  simp only [scssOutputs, sassFiles_congr T fs1 fs2 _ _ h1, h2, hw]

theorem uniqueByPath_mem (seen : List Path) (files : List VFile) (f : VFile)
    (h : f ∈ uniqueByPath seen files) : f ∈ files := by
  induction files generalizing seen with
  | nil => simp [uniqueByPath] at h
  | cons g rest ih =>
    simp only [uniqueByPath] at h
    split at h
    · exact List.mem_cons_of_mem _ (ih _ h)
    · rcases List.mem_cons.mp h with rfl | h
      · exact List.mem_cons_self _ _
      · exact List.mem_cons_of_mem _ (ih _ h)

theorem readStreams_mem (fs : FS) (allowEmpty : Bool) (streams : List (Glob × List Glob))
    (files : List VFile) (h : readStreams fs allowEmpty streams = .ok files)
    (f : VFile) (hf : f ∈ files) :
    ∃ s ∈ streams, f ∈ globFiles fs s.1 s.2 := by
  induction streams generalizing files with
  | nil =>
    simp only [readStreams, Except.ok.injEq] at h
    subst h
    simp at hf
  | cons s rest ih =>
    obtain ⟨g, ignore⟩ := s
    simp only [readStreams] at h
    split at h
    · simp at h
    · cases hrest : readStreams fs allowEmpty rest with
      | error e => rw [hrest] at h; simp at h
      | ok more =>
        rw [hrest] at h
        simp only [Except.ok.injEq] at h
        subst h
        rcases List.mem_append.mp hf with hf | hf
        · exact ⟨(g, ignore), List.mem_cons_self _ _, hf⟩
        · obtain ⟨s, hs, hfs⟩ := ih more hrest hf
          exact ⟨s, List.mem_cons_of_mem _ hs, hfs⟩

/-- No source file of `scss` has a `..` segment in its relative path. -/
theorem scss_srcFiles_relative (fs : FS) (files : List VFile)
    (h : srcFiles fs scss = .ok files) (f : VFile) (hf : f ∈ files) :
    ".." ∉ f.relative := by
  unfold srcFiles at h
  rw [scss_streams] at h
  cases hread : readStreams fs scss.allowEmpty _ with
  | error e => rw [hread] at h; simp at h
  | ok all =>
    rw [hread] at h
    simp only [Except.ok.injEq] at h
    subst h
    obtain ⟨s, hs, hfs⟩ := readStreams_mem fs _ _ all hread f (uniqueByPath_mem _ _ f hf)
    unfold globFiles at hfs
    obtain ⟨e, he, rfl⟩ := List.mem_map.mp hfs
    have hsel := (List.mem_filter.mp he).2
    simp only [selects, Bool.and_eq_true] at hsel
    have hsub : ∀ d dirs name, e.1 = "scss" :: d :: (dirs ++ [name]) →
        (∀ s ∈ dirs, isDotName s = false) → isDotName name = false →
        ".." ∉ e.1.drop 2 := by
      intro d dirs name hp hdirs hname hmem
      rw [hp] at hmem
      simp only [List.drop_succ_cons, List.drop_zero, List.mem_append, List.mem_singleton] at hmem
      rcases hmem with hmem | hmem
      · exact absurd (hdirs _ hmem) (by decide)
      · rw [← hmem] at hname
        exact absurd hname (by decide)
    simp only [List.mem_cons, List.mem_singleton, List.not_mem_nil, or_false] at hs
    rcases hs with rfl | rfl | rfl
    · obtain ⟨dirs, name, hp, hdirs, hname, -⟩ := (subtree_match_iff _ _).mp hsel.1
      exact hsub _ dirs name hp hdirs hname
    · obtain ⟨dirs, name, hp, hdirs, hname, -⟩ := (subtree_match_iff _ _).mp hsel.1
      exact hsub _ dirs name hp hdirs hname
    · have hp := (literal_match_iff _ _ _ _).mp hsel.1
      simp only [globBase, List.length_cons, List.length_nil]
      rw [hp]
      decide

/-! ## The default task on the file system -/

theorem agreeOutside_refl (dir : String) (fs : FS) : agreeOutside dir fs fs :=
  fun _ _ => rfl

theorem agreeOutside_trans (dir : String) (fs1 fs2 fs3 : FS)
    (h12 : agreeOutside dir fs1 fs2) (h23 : agreeOutside dir fs2 fs3) :
    agreeOutside dir fs1 fs3 :=
  fun path hp => (h12 path hp).trans (h23 path hp)

/-- A write inside a directory changes nothing outside it. -/
theorem agreeOutside_writeFile (dir : String) (fs : FS) (rest : Path) (c : Content) :
    agreeOutside dir fs (writeFile fs (dir :: rest) c) := by
  intro path hp
  rw [readFile_writeFile, if_neg]
  rintro rfl
  exact hp rfl

/-- Writes inside a directory change nothing outside it. -/
theorem agreeOutside_writeAll (dir : String) (fs : FS) (outputs : List (Path × Content))
    (h : ∀ out ∈ outputs, ∃ rest, out.1 = dir :: rest) :
    agreeOutside dir fs (writeAll fs outputs) := by
  induction outputs generalizing fs with
  | nil => exact agreeOutside_refl dir fs
  | cons out rest ih =>
    obtain ⟨tail, htail⟩ := h out (List.mem_cons_self _ _)
    show agreeOutside dir fs (writeAll (writeFile fs out.1 out.2) rest)
    refine agreeOutside_trans dir _ _ _ ?_ (ih _ fun o ho => h o (List.mem_cons_of_mem _ ho))
    rw [htail]
    exact agreeOutside_writeFile dir fs tail out.2

/-- The file system after `gulp default`, step by step: an error of `gulp.src` in `scss`
leaves it as it was; otherwise `scss` writes its files and `minify:css` adds the minified
file when `css/volt.css` is there. -/
theorem runDefault_eq (T : Transformers) (fs : FS) :
    runDefault T fs =
      match srcFiles fs scss with
      | .error _ => fs
      | .ok files =>
        match readFile (writeAll fs (scssOutputs T files fs)) ["css", "volt.css"] with
        | none => writeAll fs (scssOutputs T files fs)
        | some c =>
          writeFile (writeAll fs (scssOutputs T files fs)) ["css", "volt.min.css"]
            (T.cleanCss (writeAll fs (scssOutputs T files fs)) ["css", "volt.css"] c) := by
  have hreg : Registry.get registry "default"
        = some (.series "default" [.fn "scss" scss, .fn "minify:css" minifyCss]) := rfl
  simp only [runDefault, runNamed, hreg, Option.map_some', runTask, runSeries, World.report,
    World.init]
  cases hsrc : srcFiles fs scss with
  | error e => simp [runPipeline, hsrc]
  | ok files =>
    obtain ⟨herr, hfs, -⟩ := scss_stages_run T files fs
    have hpipe : runPipeline T scss fs = runStages T scss.stages (Run.start files fs) := by
      simp [runPipeline, hsrc]
    simp only [hpipe, herr, minifyCss_run, hfs]
    cases readFile (writeAll fs (scssOutputs T files fs)) ["css", "volt.css"] with
    | none => rfl
    | some c => rfl

/-- C8, as amended.  For tools that read nothing under `css` but the file they are
given, running `default` a second time changes nothing: on every file system each path
holds after two runs exactly what it holds after one (the same files with the same
contents).  The sources under `./scss` are the same for both runs, since every path the
build writes lies under `css`. -/
theorem default_idempotent (T : Transformers) (hT : T.readOutside "css") (fs : FS)
    (path : Path) :
    readFile (runDefault T (runDefault T fs)) path = readFile (runDefault T fs) path := by
  cases hsrc : srcFiles fs scss with
  | error e =>
    have h1 : runDefault T fs = fs := by rw [runDefault_eq, hsrc]
    rw [h1, h1]
  | ok files =>
    have hrel := scss_srcFiles_relative fs files hsrc
    have hcss : ∀ fs', ∀ out ∈ scssOutputs T files fs', ∃ rest, out.1 = "css" :: rest :=
      fun fs' => scssOutputs_css T files fs' hrel
    have hsame : ∀ fs', agreeOutside "css" fs fs' →
        scssOutputs T files fs' = scssOutputs T files fs := by
      intro fs' hagree
      obtain ⟨h1, h2, h3, h4, -⟩ := hT fs fs' hagree
      exact (scssOutputs_congr T files fs fs' h1 h2 h3 h4).symm
    generalize hW : scssOutputs T files fs = outputs at hsame
    have hWcss : ∀ out ∈ outputs, ∃ rest, out.1 = "css" :: rest := hW ▸ hcss fs
    have hunsel : ∀ out ∈ outputs, scss.selects out.1 = false := by
      intro out hout
      obtain ⟨rest, hrest⟩ := hWcss out hout
      rw [hrest]
      exact scss_selects_css rest
    have hsrc1 : srcFiles (writeAll fs outputs) scss = .ok files := by
      rw [srcFiles_writeAll fs scss outputs hunsel, hsrc]
    have hag1 : agreeOutside "css" fs (writeAll fs outputs) :=
      agreeOutside_writeAll "css" fs outputs hWcss
    cases hc : readFile (writeAll fs outputs) ["css", "volt.css"] with
    | none =>
      have h1 : runDefault T fs = writeAll fs outputs := by
        rw [runDefault_eq, hsrc]
        simp only [hW, hc]
      have h2 : runDefault T (writeAll fs outputs) = writeAll (writeAll fs outputs) outputs := by
        rw [runDefault_eq, hsrc1]
        simp only [hsame _ hag1, readFile_writeAll_twice, hc]
      rw [h1, h2, readFile_writeAll_twice]
    | some c =>
      generalize hm : T.cleanCss (writeAll fs outputs) ["css", "volt.css"] c = m
      have h1 : runDefault T fs = writeFile (writeAll fs outputs) ["css", "volt.min.css"] m := by
        rw [runDefault_eq, hsrc]
        simp only [hW, hc, hm]
      have hag2 : agreeOutside "css" fs
          (writeFile (writeAll fs outputs) ["css", "volt.min.css"] m) :=
        agreeOutside_trans "css" _ _ _ hag1 (agreeOutside_writeFile "css" _ _ m)
      have hag3 : agreeOutside "css" fs
          (writeAll (writeFile (writeAll fs outputs) ["css", "volt.min.css"] m) outputs) :=
        agreeOutside_trans "css" _ _ _ hag2 (agreeOutside_writeAll "css" _ outputs hWcss)
      have hclean : T.cleanCss
          (writeAll (writeFile (writeAll fs outputs) ["css", "volt.min.css"] m) outputs)
            = T.cleanCss (writeAll fs outputs) := by
        rw [← (hT fs _ hag3).2.2.2.2, ← (hT fs _ hag1).2.2.2.2]
      have hsrc2 : srcFiles (writeFile (writeAll fs outputs) ["css", "volt.min.css"] m) scss
          = .ok files := by
        rw [srcFiles_writeFile _ scss _ _ (scss_selects_css _), hsrc1]
      have hread : ∀ q, q ≠ ["css", "volt.min.css"] →
          readFile (writeAll (writeFile (writeAll fs outputs) ["css", "volt.min.css"] m)
            outputs) q = readFile (writeAll fs outputs) q := by
        intro q hq
        rw [readFile_writeAll_congr _ (writeAll fs outputs) outputs q, readFile_writeAll_twice]
        rw [readFile_writeFile, if_neg (Ne.symm hq)]
      have hvolt := hread ["css", "volt.css"] (by decide)
      have h2 : runDefault T (writeFile (writeAll fs outputs) ["css", "volt.min.css"] m) =
          writeFile (writeAll (writeFile (writeAll fs outputs) ["css", "volt.min.css"] m)
            outputs) ["css", "volt.min.css"] m := by
        rw [runDefault_eq, hsrc2]
        simp only [hsame _ hag2, hvolt, hc, hclean, hm]
      rw [h1, h2, readFile_writeFile, readFile_writeFile]
      by_cases hp : ["css", "volt.min.css"] = path
      · simp [hp]
      · rw [if_neg hp, if_neg hp]
        exact hread path (Ne.symm hp)

/-- C8 as amended, at a concrete input: the sample tools read only the file they are
given, and the sample tree holds the same minified file after two runs as after one. -/
theorem default_idempotent_witness :
    sampleTools.readOutside "css" ∧
    readFile (runDefault sampleTools (runDefault sampleTools sampleTree))
        ["css", "volt.min.css"]
      = readFile (runDefault sampleTools sampleTree) ["css", "volt.min.css"] ∧
    readFile (runDefault sampleTools sampleTree) ["css", "volt.min.css"]
      = some "min(prefixed(css(a))/*# sourceMappingURL=volt.css.map */)" :=
  ⟨fun _ _ _ => ⟨rfl, rfl, rfl, rfl, rfl⟩,
    default_idempotent sampleTools (fun _ _ _ => ⟨rfl, rfl, rfl, rfl, rfl⟩) sampleTree
      ["css", "volt.min.css"],
    by decide⟩

/-- C8 as it was stated fails: with a compiler that resolves the import of
`../css/volt.min` from disk, a file the build writes, the second run of `default` on the
sample tree compiles another `css/volt.css` than the first, while the sources under
`scss` are what they were. -/
theorem default_idempotent_counterexample :
    readFile (runDefault sampleToolsImporting sampleTreeImporting) ["scss", "volt.scss"]
      = readFile sampleTreeImporting ["scss", "volt.scss"] ∧
    readFile (runDefault sampleToolsImporting sampleTreeImporting) ["css", "volt.css"]
      = some "prefixed(css(ba))/*# sourceMappingURL=volt.css.map */" ∧
    readFile (runDefault sampleToolsImporting
        (runDefault sampleToolsImporting sampleTreeImporting)) ["css", "volt.css"]
      ≠ readFile (runDefault sampleToolsImporting sampleTreeImporting) ["css", "volt.css"] := by
  decide

/-! ## Lemmas on joining and splitting paths -/

theorem data_append (s t : String) : (s ++ t).data = s.data ++ t.data := by
  cases s; cases t; rfl

theorem splitSlash_ne_nil (cs : List Char) : splitSlash cs ≠ [] := by
  induction cs with
  | nil => simp [splitSlash]
  | cons c cs ih =>
    simp only [splitSlash]
    split
    · split <;> simp
    · split <;> simp

theorem splitSlash_no_slash (a : List Char) (h : '/' ∉ a) : splitSlash a = [a] := by
  induction a with
  | nil => rfl
  | cons c cs ih =>
    have hc : c ≠ '/' := fun e => h (by simp [e])
    have hcs : '/' ∉ cs := fun e => h (List.mem_cons_of_mem _ e)
    simp [splitSlash, ih hcs, hc]

theorem splitSlash_append (a b : List Char) (h : '/' ∉ a) :
    splitSlash (a ++ '/' :: b) = a :: splitSlash b := by
  induction a with
  | nil =>
    simp only [List.nil_append, splitSlash]
    cases hb : splitSlash b with
    | nil => exact absurd hb (splitSlash_ne_nil b)
    | cons seg segs => simp
  | cons c cs ih =>
    have hc : c ≠ '/' := fun e => h (by simp [e])
    have hcs : '/' ∉ cs := fun e => h (List.mem_cons_of_mem _ e)
    simp [splitSlash, ih hcs, hc]

theorem splitSlash_joinSegments (dirs : List String) (x : List Char)
    (hne : dirs ≠ []) (hdirs : ∀ s ∈ dirs, '/' ∉ s.data) (hx : '/' ∉ x) :
    splitSlash ((joinSegments dirs).data ++ '/' :: x) = dirs.map String.data ++ [x] := by
  induction dirs with
  | nil => exact absurd rfl hne
  | cons d rest ih =>
    have hd : '/' ∉ d.data := hdirs d (List.mem_cons_self _ _)
    cases rest with
    | nil =>
      simp only [joinSegments, List.map_cons, List.map_nil, List.cons_append, List.nil_append]
      rw [splitSlash_append _ _ hd, splitSlash_no_slash _ hx]
    | cons d2 rest =>
      have hrest := ih (by simp) (fun s hs => hdirs s (List.mem_cons_of_mem _ hs))
      simp only [joinSegments, data_append, List.append_assoc, List.map_cons, List.cons_append]
      rw [List.nil_append, splitSlash_append _ _ hd, hrest]
      simp

/-- Joining clean segments with `/` and resolving the text gives the segments back. -/
theorem resolve_join (dirs : List String) (x : String)
    (hdirs : ∀ s ∈ dirs, '/' ∉ s.data ∧ s ≠ "" ∧ s ≠ "." ∧ s ≠ "..")
    (hx : '/' ∉ x.data ∧ x ≠ "" ∧ x ≠ "." ∧ x ≠ "..") :
    resolve (joinSegments dirs ++ "/" ++ x) = dirs ++ [x] := by
  have hslash : "/".data = ['/'] := rfl
  have hclean : ∀ s ∈ dirs ++ [x], s ≠ "" ∧ s ≠ "." ∧ s ≠ ".." := by
    intro s hs
    rcases List.mem_append.mp hs with hs | hs
    · exact (hdirs s hs).2
    · rw [List.mem_singleton.mp hs]; exact hx.2
  have hnorm : normalize (dirs ++ [x]) = dirs ++ [x] := by
    rw [normalize_eq_filter _ (fun h => (hclean _ h).2.2 rfl), List.filter_eq_self]
    intro s hs
    simpa using ⟨(hclean s hs).1, (hclean s hs).2.1⟩
  cases dirs with
  | nil =>
    have hseg : segments ("." ++ "/" ++ x) = [".", x] := by
      simp only [segments, data_append, hslash, List.append_assoc, List.singleton_append]
      show List.map String.mk (splitSlash (['.'] ++ '/' :: x.data)) = _
      rw [splitSlash_append ['.'] x.data (by decide), splitSlash_no_slash _ hx.1]
      rfl
    simp only [resolve, joinSegments, hseg]
    have hno : ".." ∉ [".", x] := by
      simp only [List.mem_cons, List.mem_singleton, List.not_mem_nil, or_false, not_or]
      exact ⟨by decide, fun e => hx.2.2.2 e.symm⟩
    rw [normalize_eq_filter _ hno]
    simp [List.filter_cons, hx.2.1, hx.2.2.1]
  | cons d rest =>
    have hseg : segments (joinSegments (d :: rest) ++ "/" ++ x) = (d :: rest) ++ [x] := by
      simp only [segments, data_append, hslash, List.append_assoc, List.singleton_append]
      rw [splitSlash_joinSegments _ _ (by simp) (fun s hs => (hdirs s hs).1) hx.1]
      simp [Function.comp_def]
    rw [resolve, hseg, hnorm]

theorem parsePath_concat (dirs : List String) (name : String) :
    parsePath (dirs ++ [name]) = ⟨joinSegments dirs, stem name, extname name⟩ := by
  simp [parsePath]

theorem suffixed_clean (name suffix : String) (hname : '/' ∉ name.data)
    (hs : '/' ∉ suffix.data) (hlen : 3 ≤ suffix.length) :
    '/' ∉ (stem name ++ suffix).data ∧ stem name ++ suffix ≠ "" ∧
      stem name ++ suffix ≠ "." ∧ stem name ++ suffix ≠ ".." := by
  have hlength : 3 ≤ (stem name ++ suffix).length := by
    rw [String.length_append]; omega
  refine ⟨?_, ?_, ?_, ?_⟩
  · rw [data_append]
    simp only [List.mem_append, not_or]
    exact ⟨fun h => hname (List.mem_of_mem_take h), hs⟩
  · intro e; rw [e] at hlength; exact absurd hlength (by decide)
  · intro e; rw [e] at hlength; exact absurd hlength (by decide)
  · intro e; rw [e] at hlength; exact absurd hlength (by decide)

/-! ## Lemmas relating the stream of `gulp.src` to the selected paths -/

theorem globBase_prefix (dot : Bool) (segs : List SegPat) (path : Path)
    (h : matchSegs dot segs path = true) : globBase segs <+: path := by
  induction segs generalizing path with
  | nil => exact List.nil_prefix
  | cons p rest ih =>
    cases rest with
    | nil => cases p <;> exact List.nil_prefix
    | cons q rest =>
      cases p with
      | wild chars => exact List.nil_prefix
      | globstar => exact List.nil_prefix
      | lit s =>
        cases path with
        | nil => simp [matchSegs] at h
        | cons seg tail =>
          simp only [matchSegs, segMatch, Bool.and_eq_true, beq_iff_eq] at h
          obtain ⟨rfl, htail⟩ := h
          simp only [globBase]
          exact (List.prefix_cons_inj s).mpr (ih tail htail)

theorem globFiles_mem_path (fs : FS) (g : Glob) (ignore : List Glob) (path : Path) :
    (∃ f ∈ globFiles fs g ignore, f.path = path) ↔
      (∃ c, (path, c) ∈ fs) ∧ selects g ignore path = true := by
  have hpath : ∀ e : Path × Content, selects g ignore e.1 = true →
      globBase g.segs ++ e.1.drop (globBase g.segs).length = e.1 := by
    intro e he
    simp only [selects, Bool.and_eq_true] at he
    obtain ⟨t, ht⟩ := globBase_prefix false g.segs e.1 he.1
    rw [← ht]
    simp
  constructor
  · rintro ⟨f, hf, rfl⟩
    obtain ⟨e, he, rfl⟩ := List.mem_map.mp hf
    obtain ⟨hmem, hsel⟩ := List.mem_filter.mp he
    simp only [VFile.path]
    rw [hpath e hsel]
    exact ⟨⟨e.2, hmem⟩, hsel⟩
  · rintro ⟨⟨c, hmem⟩, hsel⟩
    refine ⟨_, List.mem_map.mpr ⟨(path, c), List.mem_filter.mpr ⟨hmem, hsel⟩, rfl⟩, ?_⟩
    exact hpath (path, c) hsel

theorem readStreams_ok (fs : FS) (allowEmpty : Bool) (streams : List (Glob × List Glob))
    (files : List VFile) (h : readStreams fs allowEmpty streams = .ok files) :
    files = streams.flatMap fun s => globFiles fs s.1 s.2 := by
  induction streams generalizing files with
  | nil =>
    simp only [readStreams, Except.ok.injEq] at h
    simp [← h]
  | cons s rest ih =>
    obtain ⟨g, ignore⟩ := s
    simp only [readStreams] at h
    split at h
    · simp at h
    · cases hrest : readStreams fs allowEmpty rest with
      | error e => rw [hrest] at h; simp at h
      | ok more =>
        rw [hrest] at h
        simp only [Except.ok.injEq] at h
        rw [← h, ih more hrest]
        simp

theorem uniqueByPath_mem_path (seen : List Path) (files : List VFile) (path : Path) :
    (∃ f ∈ uniqueByPath seen files, f.path = path) ↔
      path ∉ seen ∧ ∃ f ∈ files, f.path = path := by
  induction files generalizing seen with
  | nil => simp [uniqueByPath]
  | cons g rest ih =>
    simp only [uniqueByPath]
    split
    · rename_i hseen
      rw [ih]
      constructor
      · rintro ⟨hp, f, hf, rfl⟩
        exact ⟨hp, f, List.mem_cons_of_mem _ hf, rfl⟩
      · rintro ⟨hp, f, hf, rfl⟩
        rcases List.mem_cons.mp hf with rfl | hf
        · exact absurd hseen hp
        · exact ⟨hp, f, hf, rfl⟩
    · rename_i hseen
      constructor
      · rintro ⟨f, hf, rfl⟩
        rcases List.mem_cons.mp hf with rfl | hf
        · exact ⟨hseen, f, List.mem_cons_self _ _, rfl⟩
        · obtain ⟨hp, f', hf', he⟩ := (ih (g.path :: seen)).mp ⟨f, hf, rfl⟩
          exact ⟨fun h => hp (List.mem_cons_of_mem _ h), f', List.mem_cons_of_mem _ hf', he⟩
      · rintro ⟨hp, f, hf, rfl⟩
        by_cases hg : f.path = g.path
        · exact ⟨g, List.mem_cons_self _ _, hg.symm⟩
        · rcases List.mem_cons.mp hf with rfl | hf
          · exact absurd rfl hg
          · obtain ⟨f', hf', he⟩ := (ih (g.path :: seen)).mpr
              ⟨by simpa [hg] using hp, f, hf, rfl⟩
            exact ⟨f', List.mem_cons_of_mem _ hf', he⟩

/-- The paths in the stream of `gulp.src` are the paths of the file system the stream
selects. -/
theorem srcFiles_mem_path (fs : FS) (p : Pipeline) (files : List VFile)
    (h : srcFiles fs p = .ok files) (path : Path) :
    (∃ f ∈ files, f.path = path) ↔ (∃ c, (path, c) ∈ fs) ∧ p.selects path = true := by
  unfold srcFiles at h
  cases hread : readStreams fs p.allowEmpty (srcStreams (p.globs.map parseGlob)) with
  | error e => rw [hread] at h; simp at h
  | ok all =>
    rw [hread] at h
    simp only [Except.ok.injEq] at h
    subst h
    rw [uniqueByPath_mem_path, readStreams_ok fs _ _ all hread]
    simp only [List.not_mem_nil, not_false_eq_true, true_and, List.mem_flatMap,
      Pipeline.selects, List.any_eq_true]
    constructor
    · rintro ⟨f, ⟨s, hs, hf⟩, rfl⟩
      have := (globFiles_mem_path fs s.1 s.2 f.path).mp ⟨f, hf, rfl⟩
      exact ⟨this.1, s, hs, this.2⟩
    · rintro ⟨hc, s, hs, hsel⟩
      obtain ⟨f, hf, he⟩ := (globFiles_mem_path fs s.1 s.2 path).mpr ⟨hc, hsel⟩
      exact ⟨f, ⟨s, hs, hf⟩, he⟩

/-! ## Lemmas on what `scss` reads and writes -/

theorem readFile_some_mem (fs : FS) (path : Path) (c : Content)
    (h : readFile fs path = some c) : (path, c) ∈ fs := by
  induction fs with
  | nil => simp [readFile] at h
  | cons e rest ih =>
    obtain ⟨p, d⟩ := e
    simp only [readFile] at h
    split at h
    · rename_i hp
      simp only [Option.some.injEq] at h
      rw [hp, h]
      exact List.mem_cons_self _ _
    · exact List.mem_cons_of_mem _ (ih h)

theorem readFile_writeAll_not_mem (fs : FS) (outputs : List (Path × Content)) (q : Path)
    (h : q ∉ outputs.map Prod.fst) : readFile (writeAll fs outputs) q = readFile fs q := by
  induction outputs generalizing fs with
  | nil => rfl
  | cons out rest ih =>
    simp only [List.map_cons, List.mem_cons, not_or] at h
    show readFile (writeAll (writeFile fs out.1 out.2) rest) q = _
    rw [ih _ h.2, readFile_writeFile, if_neg (Ne.symm h.1)]

/-- A path that was written can be read. -/
theorem readFile_writeAll_mem (fs : FS) (outputs : List (Path × Content)) (q : Path)
    (h : q ∈ outputs.map Prod.fst) : ∃ c, readFile (writeAll fs outputs) q = some c := by
  induction outputs generalizing fs with
  | nil => simp at h
  | cons out rest ih =>
    show ∃ c, readFile (writeAll (writeFile fs out.1 out.2) rest) q = some c
    by_cases hrest : q ∈ rest.map Prod.fst
    · exact ih _ hrest
    · simp only [List.map_cons, List.mem_cons] at h
      rcases h with h | h
      · exact ⟨out.2, by rw [readFile_writeAll_not_mem _ _ _ hrest, readFile_writeFile, if_pos h.symm]⟩
      · exact absurd h hrest

/-- The first file of a path among the files one pattern yields holds what can be read at
that path. -/
theorem globFiles_first_contents (fs : FS) (g : Glob) (ignore : List Glob) (f : VFile)
    (pre post : List VFile) (h : globFiles fs g ignore = pre ++ f :: post)
    (hpre : ∀ k ∈ pre, k.path ≠ f.path) : readFile fs f.path = some f.contents := by
  have hpath : ∀ e : Path × Content, selects g ignore e.1 = true →
      globBase g.segs ++ e.1.drop (globBase g.segs).length = e.1 := by
    intro e he
    simp only [selects, Bool.and_eq_true] at he
    obtain ⟨t, ht⟩ := globBase_prefix false g.segs e.1 he.1
    rw [← ht]
    simp
  have hsel : selects g ignore f.path = true := by
    have hf : f ∈ globFiles fs g ignore := by rw [h]; simp
    exact ((globFiles_mem_path fs g ignore f.path).mp ⟨f, hf, rfl⟩).2
  induction fs generalizing pre with
  | nil => simp [globFiles] at h
  | cons e rest ih =>
    obtain ⟨p, d⟩ := e
    unfold globFiles at h
    rw [List.filter_cons] at h
    by_cases hp : selects g ignore p = true
    · simp only [hp, if_true, List.map_cons] at h
      cases pre with
      | nil =>
        simp only [List.nil_append, List.cons.injEq] at h
        rw [← h.1]
        simp only [VFile.path]
        rw [hpath (p, d) hp]
        simp [readFile]
      | cons k pre =>
        simp only [List.cons_append, List.cons.injEq] at h
        have hk := hpre k (List.mem_cons_self _ _)
        rw [← h.1] at hk
        simp only [VFile.path] at hk
        rw [hpath (p, d) hp] at hk
        have hne : p ≠ f.path := hk
        show (if p = f.path then some d else readFile rest f.path) = _
        rw [if_neg hne]
        exact ih pre h.2 fun k' hk' => hpre k' (List.mem_cons_of_mem _ hk')
    · simp only [hp, Bool.false_eq_true, if_false] at h
      have hne : p ≠ f.path := fun e => hp (e ▸ hsel)
      simp only [readFile, hne, if_false]
      exact ih pre h hpre

/-- A file kept by `uniqueByPath` is the first of its path in the list. -/
theorem uniqueByPath_first (seen : List Path) (files : List VFile) (f : VFile)
    (h : f ∈ uniqueByPath seen files) :
    ∃ pre post, files = pre ++ f :: post ∧ ∀ k ∈ pre, k.path ≠ f.path := by
  induction files generalizing seen with
  | nil => simp [uniqueByPath] at h
  | cons g rest ih =>
    have hseen : ∀ seen', f ∈ uniqueByPath seen' rest → f.path ∉ seen' := fun seen' hf =>
      ((uniqueByPath_mem_path seen' rest f.path).mp ⟨f, hf, rfl⟩).1
    simp only [uniqueByPath] at h
    split at h
    · rename_i hg
      obtain ⟨pre, post, hsplit, hpre⟩ := ih seen h
      refine ⟨g :: pre, post, by rw [hsplit]; rfl, ?_⟩
      intro k hk
      rcases List.mem_cons.mp hk with rfl | hk
      · exact fun e => hseen seen h (e ▸ hg)
      · exact hpre k hk
    · rcases List.mem_cons.mp h with rfl | h
      · exact ⟨[], rest, rfl, by simp⟩
      · obtain ⟨pre, post, hsplit, hpre⟩ := ih _ h
        refine ⟨g :: pre, post, by rw [hsplit]; rfl, ?_⟩
        intro k hk
        rcases List.mem_cons.mp hk with rfl | hk
        · exact fun e => hseen _ h (by simp [e])
        · exact hpre k hk

/-- The first file of a path among the files of the streams holds what can be read at
that path. -/
theorem flatMap_first_contents (fs : FS) (streams : List (Glob × List Glob)) (f : VFile)
    (pre post : List VFile)
    (h : (streams.flatMap fun s => globFiles fs s.1 s.2) = pre ++ f :: post)
    (hpre : ∀ k ∈ pre, k.path ≠ f.path) : readFile fs f.path = some f.contents := by
  induction streams generalizing pre with
  | nil => simp at h
  | cons s rest ih =>
    rw [List.flatMap_cons] at h
    rcases List.append_eq_append_iff.mp h with ⟨mid, hpre', hrest⟩ | ⟨mid, hfound, hmid⟩
    · exact ih mid hrest fun k hk => hpre k (by rw [hpre']; exact List.mem_append_right _ hk)
    · cases mid with
      | nil =>
        simp only [List.nil_append] at hmid
        exact ih [] hmid.symm (by simp)
      | cons k mid =>
        simp only [List.cons_append, List.cons.injEq] at hmid
        obtain ⟨rfl, -⟩ := hmid
        exact globFiles_first_contents fs s.1 s.2 f pre mid hfound hpre

/-- Every file in the stream of `gulp.src` holds what can be read at its path. -/
theorem srcFiles_contents (fs : FS) (p : Pipeline) (files : List VFile)
    (h : srcFiles fs p = .ok files) (f : VFile) (hf : f ∈ files) :
    readFile fs f.path = some f.contents := by
  unfold srcFiles at h
  cases hread : readStreams fs p.allowEmpty (srcStreams (p.globs.map parseGlob)) with
  | error e => rw [hread] at h; simp at h
  | ok all =>
    rw [hread] at h
    simp only [Except.ok.injEq] at h
    subst h
    obtain ⟨pre, post, hsplit, hpre⟩ := uniqueByPath_first [] all f hf
    rw [readStreams_ok fs _ _ all hread] at hsplit
    exact flatMap_first_contents fs _ f pre post hsplit hpre

/-- When the entry point `scss/volt.scss` exists, `gulp.src` of `scss` yields a stream. -/
theorem scss_srcFiles_ok (fs : FS) (c : Content)
    (hvolt : readFile fs ["scss", "volt.scss"] = some c) :
    ∃ files, srcFiles fs scss = .ok files := by
  have hfound : globFiles fs ⟨false, [.lit "scss", .lit "volt.scss"]⟩
      [⟨true, [.globstar, .lit "node_modules", .globstar]⟩] ≠ [] := by
    have hsel : selects ⟨false, [.lit "scss", .lit "volt.scss"]⟩
        [⟨true, [.globstar, .lit "node_modules", .globstar]⟩] ["scss", "volt.scss"] = true := by
      decide
    obtain ⟨f, hf, -⟩ := (globFiles_mem_path fs _ _ ["scss", "volt.scss"]).mpr
      ⟨⟨c, readFile_some_mem fs _ c hvolt⟩, hsel⟩
    exact List.ne_nil_of_mem hf
  unfold srcFiles
  rw [scss_streams]
  simp only [readStreams, Glob.isSingular, List.all_cons, List.all_nil, Bool.and_true,
    Bool.and_false, Bool.false_and, Bool.false_eq_true, if_false, Bool.true_and,
    List.isEmpty_eq_true, hfound, Bool.not_eq_true', Bool.and_eq_true, false_and]
  exact ⟨_, rfl⟩

/-- The entry point is in the stream of `scss` with base `scss`, relative name
`volt.scss` and the contents that can be read at `scss/volt.scss`. -/
theorem scss_srcFiles_volt (fs : FS) (files : List VFile) (c : Content)
    (hsrc : srcFiles fs scss = .ok files)
    (hvolt : readFile fs ["scss", "volt.scss"] = some c) :
    ∃ f ∈ files, f.base = ["scss"] ∧ f.relative = ["volt.scss"] ∧ f.contents = c := by
  have hsel : scss.selects ["scss", "volt.scss"] = true := by decide
  obtain ⟨f, hf, hpath⟩ := (srcFiles_mem_path fs scss files hsrc ["scss", "volt.scss"]).mpr
    ⟨⟨c, readFile_some_mem fs _ c hvolt⟩, hsel⟩
  have hcontents : f.contents = c := by
    have := srcFiles_contents fs scss files hsrc f hf
    rw [hpath, hvolt] at this
    exact (Option.some.inj this).symm
  refine ⟨f, hf, ?_, ?_, hcontents⟩ <;>
  · unfold srcFiles at hsrc
    rw [scss_streams] at hsrc
    cases hread : readStreams fs scss.allowEmpty _ with
    | error e => rw [hread] at hsrc; simp at hsrc
    | ok all =>
      rw [hread] at hsrc
      simp only [Except.ok.injEq] at hsrc
      subst hsrc
      obtain ⟨s, hs, hfs⟩ := readStreams_mem fs _ _ all hread f (uniqueByPath_mem _ _ f hf)
      unfold globFiles at hfs
      obtain ⟨e, he, rfl⟩ := List.mem_map.mp hfs
      have hesel := (List.mem_filter.mp he).2
      have hbase : globBase s.1.segs ++ e.1.drop (globBase s.1.segs).length = e.1 := by
        simp only [selects, Bool.and_eq_true] at hesel
        obtain ⟨t, ht⟩ := globBase_prefix false s.1.segs e.1 hesel.1
        rw [← ht]
        simp
      simp only [VFile.path] at hpath
      rw [hbase] at hpath
      simp only [selects, Bool.and_eq_true] at hesel
      have hsub : ∀ d, ¬ matchSegs false
          [.lit "scss", .lit d, .globstar, .wild ['*', '.', 's', 'c', 's', 's']] e.1 = true := by
        intro d hm
        obtain ⟨dirs, name, hp, -⟩ := (subtree_match_iff d e.1).mp hm
        rw [hpath] at hp
        simp only [List.cons.injEq, true_and] at hp
        exact absurd (congrArg List.length hp.2) (by simp)
      simp only [List.mem_cons, List.mem_singleton, List.not_mem_nil, or_false] at hs
      rcases hs with rfl | rfl | rfl
      · exact absurd hesel.1 (hsub _)
      · exact absurd hesel.1 (hsub _)
      · simp [globBase, hpath]

/-! ## The tasks -/

/-- C1.  The task registered as `default` is the series of exactly the two registered
tasks `scss` and `minify:css`, in this order.  Every run of `default` reports one of
three traces: `scss` ends with an error and nothing else is started; or `scss` finishes,
then `minify:css` is started and ends with an error; or `scss` finishes, then
`minify:css` is started and finishes.  So in every run a start of `minify:css` comes
after the report that `scss` has finished, and every report is about `default`, `scss`
or `minify:css`: no other task runs. -/
theorem default_is_scss_then_minify (T : Transformers) (fs : FS) :
    Registry.get registry "default"
        = some (.series "default" [.fn "scss" scss, .fn "minify:css" minifyCss]) ∧
    ∃ w e, runNamed T "default" fs = some (w, e) ∧
      ((∃ m, e = some m ∧ w.trace =
          [.started "default", .started "scss", .errored "scss" m, .errored "default" m]) ∨
       (∃ m, e = some m ∧ w.trace =
          [.started "default", .started "scss", .finished "scss",
           .started "minify:css", .errored "minify:css" m, .errored "default" m]) ∨
       (e = none ∧ w.trace =
          [.started "default", .started "scss", .finished "scss",
           .started "minify:css", .finished "minify:css", .finished "default"])) ∧
      (∀ i : Nat, w.trace[i]? = some (Event.started "minify:css") →
        ∃ j : Nat, j < i ∧ w.trace[j]? = some (Event.finished "scss")) ∧
      (∀ ev ∈ w.trace, ev.task = "default" ∨ ev.task = "scss" ∨ ev.task = "minify:css") := by
  have hreg : Registry.get registry "default"
        = some (.series "default" [.fn "scss" scss, .fn "minify:css" minifyCss]) := rfl
  refine ⟨hreg, ?_⟩
  have hshape : ∃ w e, runNamed T "default" fs = some (w, e) ∧
      ((∃ m, e = some m ∧ w.trace =
          [.started "default", .started "scss", .errored "scss" m, .errored "default" m]) ∨
       (∃ m, e = some m ∧ w.trace =
          [.started "default", .started "scss", .finished "scss",
           .started "minify:css", .errored "minify:css" m, .errored "default" m]) ∨
       (e = none ∧ w.trace =
          [.started "default", .started "scss", .finished "scss",
           .started "minify:css", .finished "minify:css", .finished "default"])) := by
    simp only [runNamed, hreg, Option.map_some', runTask, runSeries, World.report, World.init]
    cases h1 : (runPipeline T scss fs).error with
    | some m => exact ⟨_, _, rfl, Or.inl ⟨m, rfl, rfl⟩⟩
    | none =>
      simp only []
      cases h2 : (runPipeline T minifyCss (runPipeline T scss fs).fs).error with
      | some m => exact ⟨_, _, rfl, Or.inr (Or.inl ⟨m, rfl, rfl⟩)⟩
      | none => exact ⟨_, _, rfl, Or.inr (Or.inr ⟨rfl, rfl⟩)⟩
  obtain ⟨w, e, hrun, hcases⟩ := hshape
  refine ⟨w, e, hrun, hcases, ?_, ?_⟩
  · intro i hi
    rcases hcases with ⟨m, -, ht⟩ | ⟨m, -, ht⟩ | ⟨-, ht⟩
    · rw [ht] at hi
      match i, hi with
      | 0, hi | 1, hi | 2, hi | 3, hi => simp at hi
      | _ + 4, hi => simp at hi
    · rw [ht] at hi ⊢
      match i, hi with
      | 0, hi | 1, hi | 2, hi | 4, hi | 5, hi => simp at hi
      | 3, _ => exact ⟨2, by decide, rfl⟩
      | _ + 6, hi => simp at hi
    · rw [ht] at hi ⊢
      match i, hi with
      | 0, hi | 1, hi | 2, hi | 4, hi | 5, hi => simp at hi
      | 3, _ => exact ⟨2, by decide, rfl⟩
      | _ + 6, hi => simp at hi
  · intro ev hev
    rcases hcases with ⟨m, -, ht⟩ | ⟨m, -, ht⟩ | ⟨-, ht⟩ <;>
      · rw [ht] at hev
        simp only [List.mem_cons, List.mem_singleton, List.not_mem_nil, or_false] at hev
        rcases hev with rfl | rfl | rfl | rfl | rfl | rfl <;> simp [Event.task]

/-- C2.  When `./css/volt.css` is there, `minify:css` raises nothing and writes exactly
one file, at `./css/volt.min.css`, holding the minified contents of `./css/volt.css`.
The rename callback receives base name `volt` with extension `.css` and returns it with
extension `.min.css`; the destination is `paths.src.css`, which is `./css`. -/
theorem minifyCss_writes_volt_min (T : Transformers) (fs : FS) (c : Content)
    (h : readFile fs (resolve "./css/volt.css") = some c) :
    (runPipeline T minifyCss fs).error = none ∧
    (runPipeline T minifyCss fs).written = [resolve "./css/volt.min.css"] ∧
    (runPipeline T minifyCss fs).fs
      = writeFile fs (resolve "./css/volt.min.css") (T.cleanCss fs (resolve "./css/volt.css") c) ∧
    parsePath ["volt.css"] = ⟨".", "volt", ".css"⟩ ∧
    minifyRename (parsePath ["volt.css"]) = ⟨".", "volt", ".min.css"⟩ ∧
    minifyCss.stages.getLast? = some (.dest paths.src.css) ∧
    paths.src.css = "./css" := by
  have hin : resolve "./css/volt.css" = ["css", "volt.css"] := by decide
  have hout : resolve "./css/volt.min.css" = ["css", "volt.min.css"] := by decide
  rw [hin] at h
  rw [minifyCss_run, h, hout]
  exact ⟨rfl, rfl, rfl, by decide, by decide, rfl, rfl⟩

/-- C2, at a concrete input: a file system that holds `css/volt.css`. -/
theorem minifyCss_writes_volt_min_witness :
    readFile [(["css", "volt.css"], "a")] (resolve "./css/volt.css") = some "a" ∧
    (runPipeline sampleTools minifyCss [(["css", "volt.css"], "a")]).error = none ∧
    (runPipeline sampleTools minifyCss [(["css", "volt.css"], "a")]).written
      = [resolve "./css/volt.min.css"] ∧
    (runPipeline sampleTools minifyCss [(["css", "volt.css"], "a")]).fs
      = writeFile [(["css", "volt.css"], "a")] (resolve "./css/volt.min.css")
          (sampleTools.cleanCss [(["css", "volt.css"], "a")] (resolve "./css/volt.css") "a") :=
  ⟨by decide,
    (minifyCss_writes_volt_min sampleTools [(["css", "volt.css"], "a")] "a" (by decide)).1,
    (minifyCss_writes_volt_min sampleTools [(["css", "volt.css"], "a")] "a" (by decide)).2.1,
    (minifyCss_writes_volt_min sampleTools [(["css", "volt.css"], "a")] "a" (by decide)).2.2.1⟩

/-- C3.  For every path record, the rename callback of `minify:css` leaves `dirname` and
`basename` as they were and sets `extname` to `.min.css`, whatever it was.  So a file
below directories `dirs` with name `name` is renamed to the file below the same
directories whose name is the base name of `name` followed by `.min.css` (for segments
that are proper names: not empty, not `.` or `..`, without `/`). -/
theorem minifyRename_frame :
    (∀ path : PathRecord,
      (minifyRename path).dirname = path.dirname ∧
      (minifyRename path).basename = path.basename ∧
      (minifyRename path).extname = ".min.css" ∧
      joinRecord (minifyRename path)
        = resolve (path.dirname ++ "/" ++ (path.basename ++ ".min.css"))) ∧
    (∀ (dirs : List String) (name : String),
      (∀ s ∈ dirs ++ [name], '/' ∉ s.data ∧ s ≠ "" ∧ s ≠ "." ∧ s ≠ "..") →
      joinRecord (minifyRename (parsePath (dirs ++ [name])))
        = dirs ++ [stem name ++ ".min.css"]) := by
  refine ⟨fun path => ⟨rfl, rfl, rfl, rfl⟩, fun dirs name h => ?_⟩
  rw [parsePath_concat]
  show resolve (joinSegments dirs ++ "/" ++ (stem name ++ ".min.css")) = _
  exact resolve_join dirs _ (fun s hs => h s (List.mem_append_left _ hs))
    (suffixed_clean name ".min.css" (h name (by simp)).1 (by decide) (by decide))

/-- C3, at a concrete input: `vendor/volt.css` is renamed to `vendor/volt.min.css`. -/
theorem minifyRename_frame_witness :
    joinRecord (minifyRename (parsePath (["vendor"] ++ ["volt.css"])))
      = ["vendor"] ++ [stem "volt.css" ++ ".min.css"] ∧
    ["vendor"] ++ [stem "volt.css" ++ ".min.css"] = ["vendor", "volt.min.css"] :=
  ⟨minifyRename_frame.2 ["vendor"] "volt.css" (by decide), by decide⟩

/-- C4.  The stages of `scss` are, in this order: the delay of 500 ms, source-map
initialisation, the compiler with the handler `sass.logError`, the prefixer with browser
range `> 1%`, the source-map write to `.`, the write to `paths.src.css`, which is
`./css`, and the live-reload stream.  No plugin occurs twice, and running the stages
applies them in that order, the live-reload stream last, after the write. -/
theorem scss_stage_order :
    scss.stages =
      [ .wait 500, .sourcemapsInit, .sass (some .logError), .autoprefixer ["> 1%"],
        .sourcemapsWrite ".", .dest "./css", .browserSyncStream ] ∧
    scss.stages.map Stage.plugin =
      [ "gulp-wait", "gulp-sourcemaps:init", "gulp-sass", "gulp-autoprefixer",
        "gulp-sourcemaps:write", "gulp.dest", "browser-sync:stream" ] ∧
    (scss.stages.map Stage.plugin).Nodup ∧
    ∀ (T : Transformers) (r : Run),
      runStages T scss.stages r =
        applyStage T .browserSyncStream
          (applyStage T (.dest "./css")
            (applyStage T (.sourcemapsWrite ".")
              (applyStage T (.autoprefixer ["> 1%"])
                (applyStage T (.sass (some .logError))
                  (applyStage T .sourcemapsInit
                    (applyStage T (.wait 500) r)))))) :=
  ⟨rfl, by decide, by decide, fun _ _ => rfl⟩

/-- C5, as amended.  The patterns of `scss` are the three include patterns
`./scss/custom/**/*.scss`, `./scss/volt/**/*.scss` and `./scss/volt.scss` and the
exclusion pattern `!**/node_modules/**`.  A path is selected exactly when no segment of
it is `node_modules` and it is `scss/volt.scss` or lies under `scss/custom` or
`scss/volt`, has a name that ends in `.scss`, and neither its name nor a directory on
the way to it starts with a dot.  The stream of `scss` holds exactly the files of the
file system at the selected paths. -/
theorem scss_sources :
    scss.globs =
      [ "./scss/custom/**/*.scss", "./scss/volt/**/*.scss", "./scss/volt.scss",
        "!**/node_modules/**" ] ∧
    (∀ path : Path,
      scss.selects path = true ↔
        "node_modules" ∉ path ∧
        (path = ["scss", "volt.scss"] ∨
          ∃ d dirs name, (d = "custom" ∨ d = "volt") ∧ path = "scss" :: d :: (dirs ++ [name]) ∧
            (∀ s ∈ dirs, isDotName s = false) ∧ isDotName name = false ∧
            ".scss".data <:+ name.data)) ∧
    (∀ (fs : FS) (files : List VFile), srcFiles fs scss = .ok files →
      ∀ path : Path,
        (∃ f ∈ files, f.path = path) ↔ (∃ c, (path, c) ∈ fs) ∧ scss.selects path = true) :=
  ⟨by decide, fun path => scss_selects_iff path,
    fun fs files h path => srcFiles_mem_path fs scss files h path⟩

/-- C5 as it was stated fails: the include patterns of the two subtrees are not `**/*`,
and the file `scss/custom/notes.txt` of the sample tree is not selected; the stream of
`scss` on the sample tree holds the three `.scss` files only. -/
theorem scss_sources_counterexample :
    scss.globs ≠
      [ "./scss/custom/**/*", "./scss/volt/**/*", "./scss/volt.scss", "!**/node_modules/**" ] ∧
    readFile sampleTree ["scss", "custom", "notes.txt"] = some "c" ∧
    scss.selects ["scss", "custom", "notes.txt"] = false ∧
    (match srcFiles sampleTree scss with
      | .ok files => files.map VFile.path
      | .error _ => []) =
      [ ["scss", "custom", "forms", "input.scss"], ["scss", "volt", "_variables.scss"],
        ["scss", "volt.scss"] ] := by
  decide

/-- C6, as amended.  When `./css/volt.css` does not exist, `minify:css` writes no file
and leaves the file system as it was, and it ends with an error: its pattern has no
wildcard and `gulp.src` is called without `allowEmpty`, so the source stage reports that
the file was not found instead of yielding an empty stream.  The later stages do map an
empty stream to an empty stream and write nothing. -/
theorem minifyCss_missing_input (T : Transformers) (fs : FS)
    (h : readFile fs (resolve "./css/volt.css") = none) :
    minifyCss.allowEmpty = false ∧
    (runPipeline T minifyCss fs).error = some (singularGlobError "css/volt.css") ∧
    (runPipeline T minifyCss fs).files = [] ∧
    (runPipeline T minifyCss fs).written = [] ∧
    (runPipeline T minifyCss fs).fs = fs ∧
    (runNamed T "minify:css" fs).map (fun o => (o.1.trace, o.1.fs, o.2)) =
      some ([.started "minify:css", .errored "minify:css" (singularGlobError "css/volt.css")],
        fs, some (singularGlobError "css/volt.css")) ∧
    runStages T minifyCss.stages (Run.start [] fs) = Run.start [] fs := by
  have hin : resolve "./css/volt.css" = ["css", "volt.css"] := by decide
  rw [hin] at h
  have hreg : Registry.get registry "minify:css" = some (.fn "minify:css" minifyCss) := rfl
  simp only [runNamed, hreg, Option.map_some', runTask, World.report, World.init]
  rw [minifyCss_run, h]
  exact ⟨rfl, rfl, rfl, rfl, rfl, rfl, rfl⟩

/-- C6 as amended, at a concrete input: the sample tree, which has no `css/volt.css`. -/
theorem minifyCss_missing_input_witness :
    readFile sampleTree (resolve "./css/volt.css") = none ∧
    (runPipeline sampleTools minifyCss sampleTree).error
      = some (singularGlobError "css/volt.css") ∧
    (runPipeline sampleTools minifyCss sampleTree).written = [] ∧
    (runPipeline sampleTools minifyCss sampleTree).fs = sampleTree :=
  ⟨by decide,
    (minifyCss_missing_input sampleTools sampleTree (by decide)).2.1,
    (minifyCss_missing_input sampleTools sampleTree (by decide)).2.2.2.1,
    (minifyCss_missing_input sampleTools sampleTree (by decide)).2.2.2.2.1⟩

/-- C6 as it was stated fails: on the sample tree, where `css/volt.css` does not exist,
`minify:css` run alone ends with an error. -/
theorem minifyCss_missing_input_counterexample :
    readFile sampleTree (resolve "./css/volt.css") = none ∧
    (runNamed sampleTools "minify:css" sampleTree).map (fun o => o.2) ≠ some none ∧
    (runNamed sampleTools "minify:css" sampleTree).map (fun o => o.2) =
      some (some
        "File not found with singular glob: css/volt.css (if this was purposeful, use allowEmpty option)") := by
  decide

/-- C9.  The path `minify:css` reads is a path `scss` writes.  When the entry point
`./scss/volt.scss` exists and compiles, and no source of the stream fails to compile,
the run of `scss` writes `./css/volt.css`: the destination `paths.src.css` joined with
the relative name `volt.scss`, its extension replaced by `.css`.  That path is the only
pattern of `minify:css` that is not an exclusion and the only path its stream selects,
so `minify:css` run after `scss` finds its input. -/
theorem minify_reads_what_scss_writes (T : Transformers) (fs : FS) (c out : Content)
    (hvolt : readFile fs (resolve "./scss/volt.scss") = some c)
    (hcss : T.sass fs (resolve "./scss/volt.scss") c = .css out)
    (hok : ∀ p d m, readFile fs p = some d → scss.selects p = true → T.sass fs p d ≠ .error m) :
    "./scss/volt.scss" ∈ scss.globs ∧
    destPath paths.src.css (replaceExt ["volt.scss"] ".css") = resolve "./css/volt.css" ∧
    resolve "./css/volt.css" ∈ (runPipeline T scss fs).written ∧
    (∃ c', readFile (runPipeline T scss fs).fs (resolve "./css/volt.css") = some c') ∧
    minifyCss.globs.filter (fun g => !(parseGlob g).negated) = ["./css/volt.css"] ∧
    (∀ path, minifyCss.selects path = true ↔ path = resolve "./css/volt.css") ∧
    (runPipeline T minifyCss (runPipeline T scss fs).fs).error = none := by
  have hin : resolve "./scss/volt.scss" = ["scss", "volt.scss"] := by decide
  have hout : resolve "./css/volt.css" = ["css", "volt.css"] := by decide
  rw [hin] at hvolt hcss
  rw [hout]
  obtain ⟨files, hsrc⟩ := scss_srcFiles_ok fs c hvolt
  obtain ⟨f, hf, hbase, hrel, hcontents⟩ := scss_srcFiles_volt fs files c hsrc hvolt
  obtain ⟨-, hfs, hwritten⟩ := scss_stages_run T files fs
  have hpipe : runPipeline T scss fs = runStages T scss.stages (Run.start files fs) := by
    simp [runPipeline, hsrc]
  have hmem : (["css", "volt.css"] : Path) ∈ (scssOutputs T files fs).map Prod.fst := by
    have hfpath : f.path = ["scss", "volt.scss"] := by simp [VFile.path, hbase, hrel]
    have hemit := sassFiles_emits T fs (some .logError)
      (files.map fun f => { f with sourceMap := true })
      (by
        intro g hg m
        obtain ⟨g0, hg0, rfl⟩ := List.mem_map.mp hg
        have hread := srcFiles_contents fs scss files hsrc g0 hg0
        have hsel := ((srcFiles_mem_path fs scss files hsrc g0.path).mp ⟨g0, hg0, rfl⟩).2
        exact hok g0.path g0.contents m hread hsel)
      { f with sourceMap := true } (List.mem_map.mpr ⟨f, hf, rfl⟩) out
      (by
        show T.sass fs f.path f.contents = _
        rw [hfpath, hcontents]
        exact hcss)
    have h2 := List.mem_map_of_mem
      (fun k : VFile => { k with contents := T.autoprefix fs ["> 1%"] k.contents }) hemit
    have h3 : ({ base := f.base, relative := replaceExt f.relative ".css",
                 contents := T.sourceMapComment fs (replaceExt f.relative ".css")
                   (T.autoprefix fs ["> 1%"] out),
                 sourceMap := true } : VFile) ∈
        ((sassFiles T fs (some .logError)
          (files.map fun f => { f with sourceMap := true })).1.map fun k =>
            { k with contents := T.autoprefix fs ["> 1%"] k.contents }).flatMap
              (writeMap T fs ".") :=
      List.mem_flatMap.mpr ⟨_, h2, by simp [writeMap]⟩
    have h4 := List.mem_map_of_mem
      (fun k : VFile => (destPath "./css" k.relative, k.contents)) h3
    have h5 := List.mem_map_of_mem Prod.fst h4
    have hdest : destPath "./css" (replaceExt f.relative ".css") = ["css", "volt.css"] := by
      rw [hrel]; decide
    simp only [hdest] at h5
    exact h5
  refine ⟨by decide, by decide, ?_, ?_, by decide, ?_, ?_⟩
  · rw [hpipe, hwritten]
    exact hmem
  · rw [hpipe, hfs]
    exact readFile_writeAll_mem fs _ _ hmem
  · intro path
    exact minifyCss_selects_iff path
  · obtain ⟨c', hc'⟩ := readFile_writeAll_mem fs _ _ hmem
    rw [hpipe, hfs, minifyCss_run, hc']

/-- C9, at a concrete input: on the sample tree `scss` writes `css/volt.css`, and
`minify:css` run after it raises nothing. -/
theorem minify_reads_what_scss_writes_witness :
    readFile sampleTree (resolve "./scss/volt.scss") = some "a" ∧
    sampleTools.sass sampleTree (resolve "./scss/volt.scss") "a" = .css "css(a)" ∧
    resolve "./css/volt.css" ∈ (runPipeline sampleTools scss sampleTree).written ∧
    (runPipeline sampleTools minifyCss (runPipeline sampleTools scss sampleTree).fs).error
      = none :=
  have h := minify_reads_what_scss_writes sampleTools sampleTree "a" "css(a)"
    (by decide) (by decide)
    (by
      intro p d m hread _
      have hmem := readFile_some_mem _ _ _ hread
      simp only [sampleTree, List.mem_cons, Prod.mk.injEq, List.mem_singleton,
        List.not_mem_nil, or_false] at hmem
      rcases hmem with ⟨rfl, rfl⟩ | ⟨rfl, rfl⟩ | ⟨rfl, rfl⟩ | ⟨rfl, rfl⟩ <;>
        simp [sampleTools, sampleSass])
  ⟨by decide, by decide, h.2.2.1, h.2.2.2.2.2.2⟩

/-- C10, as amended.  No task takes what `minify:css` writes as a source.  Every path a
run of `minify:css` writes is `./css/volt.min.css`; it is not the path `./css/volt.css`
the task reads, no include pattern of `scss` or of `minify:css` matches it and neither
stream selects it; after the run, and after any other write to that path, `gulp.src`
yields for either task what it yielded before. -/
theorem minified_file_is_not_a_source (T : Transformers) (fs : FS) :
    srcFiles (runPipeline T minifyCss fs).fs scss = srcFiles fs scss ∧
    srcFiles (runPipeline T minifyCss fs).fs minifyCss = srcFiles fs minifyCss ∧
    ∀ path ∈ (runPipeline T minifyCss fs).written,
      path = resolve "./css/volt.min.css" ∧
      path ≠ resolve "./css/volt.css" ∧
      ((scss.globs ++ minifyCss.globs).map parseGlob).all
        (fun g => g.negated || !matchSegs false g.segs path) = true ∧
      scss.selects path = false ∧
      minifyCss.selects path = false ∧
      ∀ c : Content,
        srcFiles (writeFile fs path c) scss = srcFiles fs scss ∧
        srcFiles (writeFile fs path c) minifyCss = srcFiles fs minifyCss := by
  have hout : resolve "./css/volt.min.css" = ["css", "volt.min.css"] := by decide
  have hmin : minifyCss.selects ["css", "volt.min.css"] = false := by
    rw [← Bool.not_eq_true, minifyCss_selects_iff]
    decide
  rw [minifyCss_run]
  cases readFile fs ["css", "volt.css"] with
  | none => exact ⟨rfl, rfl, fun path hp => by simp at hp⟩
  | some c0 =>
    refine ⟨srcFiles_writeFile fs scss _ _ (scss_selects_css _),
      srcFiles_writeFile fs minifyCss _ _ hmin, fun path hp => ?_⟩
    simp only [List.mem_singleton] at hp
    subst hp
    exact ⟨hout.symm, by decide, by decide, scss_selects_css _, hmin, fun c =>
      ⟨srcFiles_writeFile fs scss _ c (scss_selects_css _),
        srcFiles_writeFile fs minifyCss _ c hmin⟩⟩

/-- C10 as amended, at a concrete input: the path `minify:css` writes on a tree that
holds `css/volt.css`. -/
theorem minified_file_is_not_a_source_witness :
    (runPipeline sampleTools minifyCss sampleTreeCompiled).written = [["css", "volt.min.css"]] ∧
    scss.selects ["css", "volt.min.css"] = false ∧
    minifyCss.selects ["css", "volt.min.css"] = false :=
  ⟨by decide,
    ((minified_file_is_not_a_source sampleTools sampleTreeCompiled).2.2
      ["css", "volt.min.css"] (by decide)).2.2.2.1,
    ((minified_file_is_not_a_source sampleTools sampleTreeCompiled).2.2
      ["css", "volt.min.css"] (by decide)).2.2.2.2.1⟩

/-- C10 as it was stated fails: a task can read what `minify:css` writes.  With a
compiler that resolves the import of `../css/volt.min` from disk, `scss` run after
`minify:css` compiles the minified file into `css/volt.css`, and compiles something else
when the minified file holds something else. -/
theorem minified_file_is_not_a_source_counterexample :
    (runPipeline sampleToolsImporting minifyCss sampleTreeCompiled).written
      = [["css", "volt.min.css"]] ∧
    readFile (runPipeline sampleToolsImporting minifyCss sampleTreeCompiled).fs
      ["css", "volt.min.css"] = some "min(b)" ∧
    readFile (runPipeline sampleToolsImporting scss
        (runPipeline sampleToolsImporting minifyCss sampleTreeCompiled).fs).fs
      ["css", "volt.css"]
      = some "prefixed(css(min(b)a))/*# sourceMappingURL=volt.css.map */" ∧
    readFile (runPipeline sampleToolsImporting scss
        (writeFile (runPipeline sampleToolsImporting minifyCss sampleTreeCompiled).fs
          ["css", "volt.min.css"] "c")).fs ["css", "volt.css"]
      ≠ readFile (runPipeline sampleToolsImporting scss
          (runPipeline sampleToolsImporting minifyCss sampleTreeCompiled).fs).fs
        ["css", "volt.css"] := by
  decide

/-! ## A failure of the compiler stage

With the handler `sass.logError` attached, `scss` raises nothing whatever the compiler
returns (`scss_stages_run`).  What is written for the files that come after a failing
file depends on `Transformers.afterLoggedError`, which the gulpfile does not fix: the two
evaluations below are the build of `sampleTreeBroken`, whose first file fails, under
either value. -/

/-- When the compiler stage goes on after a logged failure, the files after the failing
one are compiled and written. -/
theorem scss_after_failure_nextFile :
    (runPipeline sampleTools scss sampleTreeBroken).error = none ∧
    (runPipeline sampleTools scss sampleTreeBroken).log = ["Error: expected selector."] ∧
    (runPipeline sampleTools scss sampleTreeBroken).written =
      [ ["css", "forms.css.map"], ["css", "forms.css"],
        ["css", "volt.css.map"], ["css", "volt.css"] ] := by
  decide

/-- When the stream ends at a logged failure, the files after the failing one are not
written. -/
theorem scss_after_failure_endStream :
    (runPipeline sampleToolsEnding scss sampleTreeBroken).error = none ∧
    (runPipeline sampleToolsEnding scss sampleTreeBroken).log = ["Error: expected selector."] ∧
    (runPipeline sampleToolsEnding scss sampleTreeBroken).written = [] := by
  decide

end Gulpfile
